import Mathlib

/-! # Go-parallel: exhaustive search for a task ordering

A shallow embedding of `main.go`.  The program enumerates every permutation of
the task indices (`generatePermutations`), keeps those that respect the
dependency lists (`isValidOrder`), scores each of them with `calculateTime`
and returns the first one with the strictly smallest score (`findOptimalOrder`).

Conventions of the embedding:

* Go slices are Lean lists; a Go `int` is an `Int`.  The only arithmetic on
  task data is the addition `minTime + task.duration`, which is modelled with
  the two's-complement wrap-around of a 64-bit `int` (`addInt`).  The index
  computations `n - 1`, `taskIndex - i - 1` and `numTasks - 1` subtract a loop
  counter or `1` from a length or an index that was just used successfully, so
  they stay inside the `int` range and are written with exact subtraction.
* Run-time panics (index or slice bound out of range) and unbounded recursion
  are explicit results: every function returns `Except Fault _`.
* The recursion of `generatePermutations` is bounded by a `fuel` argument that
  stands for the available call depth; running out of it is
  `Fault.stackExhausted`.  For `n ≥ 1` a depth of `n` suffices; for `n ≤ 0` the
  recursion moves away from its only base case and no depth suffices.
-/

namespace GoParallel

/-- The ways in which a run of the program can end without a value. -/
inductive Fault where
  | indexOutOfRange
  | stackExhausted
deriving DecidableEq, Repr

deriving instance DecidableEq for Except

/-- The record `type Task struct { duration int; depends []int }`. -/
structure Task where
  duration : Int
  depends : List Int
deriving DecidableEq, Repr

/-- The constant `math.MaxInt32`. -/
def maxInt32 : Int := 2147483647

/-- Reduction of a mathematical integer to the value a 64-bit Go `int` holds. -/
def wrapInt (x : Int) : Int :=
  (x + 9223372036854775808) % 18446744073709551616 - 9223372036854775808

/-- Go's `a + b` on `int`. -/
def addInt (a b : Int) : Int := wrapInt (a + b)

/-- The helper `func min(a, b int) int`. -/
def min (a b : Int) : Int := if a < b then a else b

/-- The read `xs[i]`: panics unless `0 ≤ i < len(xs)`. -/
def index {α : Type} (xs : List α) (i : Int) : Except Fault α :=
  if i < 0 then Except.error Fault.indexOutOfRange
  else
    match xs[i.toNat]? with
    | some x => Except.ok x
    | none => Except.error Fault.indexOutOfRange

/-- The write `xs[i] = v`: panics unless `0 ≤ i < len(xs)`. -/
def assign {α : Type} (xs : List α) (i : Int) (v : α) : Except Fault (List α) :=
  if i < 0 then Except.error Fault.indexOutOfRange
  else if i.toNat < xs.length then Except.ok (xs.set i.toNat v)
  else Except.error Fault.indexOutOfRange

/-- The builtin `copy(dst, src)`: the first `min(len(dst), len(src))` cells of
`dst` are overwritten with those of `src`; the result is the new content of `dst`. -/
def copy (dst src : List Int) : List Int :=
  src.take dst.length ++ dst.drop src.length

/-- The body of the inner loop of `generatePermutations`:
```
newPerm := make([]int, n)
copy(newPerm, perm[:i])
newPerm[i] = n - 1
copy(newPerm[i+1:], perm[i:])
```
The slice expressions `perm[:i]` and `perm[i:]` panic when `i > len(perm)`;
the write `newPerm[i]` and the slice `newPerm[i+1:]` are in range because the
loop guard gives `i < n`. -/
def newPerm (n : Int) (perm : List Int) (i : Nat) : Except Fault (List Int) :=
  if perm.length < i then Except.error Fault.indexOutOfRange
  else
    let p0 : List Int := List.replicate n.toNat 0
    let p1 := copy p0 (perm.take i)
    let p2 := p1.set i (n - 1)
    Except.ok (p2.take (i + 1) ++ copy (p2.drop (i + 1)) (perm.drop i))

/-- The loop `for i := 0; i < n; i++ { ...; perms = append(perms, newPerm) }`,
run over the remaining values of `i`. -/
def insertLoop (n : Int) (perm : List Int) :
    List Nat → List (List Int) → Except Fault (List (List Int))
  | [], perms => Except.ok perms
  | i :: is, perms =>
    match newPerm n perm i with
    | Except.error e => Except.error e
    | Except.ok p => insertLoop n perm is (perms ++ [p])

/-- The loop `for _, perm := range generatePermutations(n - 1) { ... }`,
run over the remaining permutations of size `n - 1`. -/
def permLoop (n : Int) : List (List Int) → List (List Int) → Except Fault (List (List Int))
  | [], perms => Except.ok perms
  | perm :: rest, perms =>
    match insertLoop n perm (List.range n.toNat) perms with
    | Except.error e => Except.error e
    | Except.ok perms1 => permLoop n rest perms1

/-- The function `generatePermutations(n int) [][]int`.  The only base case is
`n == 1`; every other argument recurses on `n - 1`. -/
def generatePermutations : Nat → Int → Except Fault (List (List Int))
  | 0, _ => Except.error Fault.stackExhausted
  | fuel + 1, n =>
    if n = 1 then Except.ok [[0]]
    else
      match generatePermutations fuel (n - 1) with
      | Except.error e => Except.error e
      | Except.ok smaller => permLoop n smaller []

/-- The loop `for _, depIndex := range task.depends { if !completed[depIndex] { return false } }`:
`ok false` is the early `return false`, `ok true` means the loop ran to its end. -/
def depsCompleted (completed : List Bool) : List Int → Except Fault Bool
  | [] => Except.ok true
  | depIndex :: rest =>
    match index completed depIndex with
    | Except.error e => Except.error e
    | Except.ok false => Except.ok false
    | Except.ok true => depsCompleted completed rest

/-- The loop `for _, taskIndex := range order { ... }` of `isValidOrder`. -/
def validLoop (tasks : List Task) : List Int → List Bool → Except Fault Bool
  | [], _ => Except.ok true
  | taskIndex :: rest, completed =>
    match index tasks taskIndex with
    | Except.error e => Except.error e
    | Except.ok task =>
      match depsCompleted completed task.depends with
      | Except.error e => Except.error e
      | Except.ok false => Except.ok false
      | Except.ok true =>
        match assign completed taskIndex true with
        | Except.error e => Except.error e
        | Except.ok completed1 => validLoop tasks rest completed1

/-- The function `isValidOrder(order []int, tasks []Task) bool`. -/
def isValidOrder (order : List Int) (tasks : List Task) : Except Fault Bool :=
  validLoop tasks order (List.replicate tasks.length false)

/-- The loop `for i := 0; i < numWorkers; i++ { ... }` of `calculateTime`, run
over the remaining values of `i`, threading `minTime`. -/
def minLoop (times : List Int) (taskIndex : Int) : List Nat → Int → Except Fault Int
  | [], minTime => Except.ok minTime
  | i :: is, minTime =>
    let prevTaskIndex : Int := if taskIndex - i - 1 < 0 then -1 else taskIndex - i - 1
    if 0 ≤ prevTaskIndex then
      match index times prevTaskIndex with
      | Except.error e => Except.error e
      | Except.ok prevTime => minLoop times taskIndex is (min minTime prevTime)
    else minLoop times taskIndex is (min minTime 0)

/-- The loop `for _, taskIndex := range order { ... }` of `calculateTime`,
threading the slice `times`. -/
def timeLoop (tasks : List Task) (numWorkers : Int) :
    List Int → List Int → Except Fault (List Int)
  | [], times => Except.ok times
  | taskIndex :: rest, times =>
    match index tasks taskIndex with
    | Except.error e => Except.error e
    | Except.ok task =>
      match minLoop times taskIndex (List.range numWorkers.toNat) maxInt32 with
      | Except.error e => Except.error e
      | Except.ok minTime =>
        match assign times taskIndex (addInt minTime task.duration) with
        | Except.error e => Except.error e
        | Except.ok times1 => timeLoop tasks numWorkers rest times1

/-- The slice `times` as it stands when the loop of `calculateTime` has ended:
the finish time recorded for every task index. -/
def finishTimes (order : List Int) (tasks : List Task) (numWorkers : Int) :
    Except Fault (List Int) :=
  timeLoop tasks numWorkers order (List.replicate tasks.length 0)

/-- The function `calculateTime(order []int, tasks []Task, numWorkers int) int`:
it returns `times[numTasks-1]`. -/
def calculateTime (order : List Int) (tasks : List Task) (numWorkers : Int) :
    Except Fault Int :=
  match finishTimes order tasks numWorkers with
  | Except.error e => Except.error e
  | Except.ok times => index times ((tasks.length : Int) - 1)

/-- The loop `for _, order := range permutations { ... }` of `findOptimalOrder`,
threading the pair `(bestOrder, bestTime)`. -/
def searchLoop (tasks : List Task) (numWorkers : Int) :
    List (List Int) → List Int × Int → Except Fault (List Int × Int)
  | [], best => Except.ok best
  | order :: rest, best =>
    match isValidOrder order tasks with
    | Except.error e => Except.error e
    | Except.ok false => searchLoop tasks numWorkers rest best
    | Except.ok true =>
      match calculateTime order tasks numWorkers with
      | Except.error e => Except.error e
      | Except.ok time =>
        if time < best.2 then searchLoop tasks numWorkers rest (copy best.1 order, time)
        else searchLoop tasks numWorkers rest best

/-- The function `findOptimalOrder(tasks []Task, numWorkers int) []int`; `fuel`
is the call depth available to `generatePermutations`. -/
def findOptimalOrder (fuel : Nat) (tasks : List Task) (numWorkers : Int) :
    Except Fault (List Int) :=
  match generatePermutations fuel (tasks.length : Int) with
  | Except.error e => Except.error e
  | Except.ok permutations =>
    match searchLoop tasks numWorkers permutations
        (List.replicate tasks.length 0, maxInt32) with
    | Except.error e => Except.error e
    | Except.ok best => Except.ok best.1

/-- The task list of `func main`. -/
def mainTasks : List Task :=
  [⟨2, []⟩, ⟨3, [0]⟩, ⟨4, [0]⟩, ⟨1, []⟩, ⟨5, [1, 2]⟩, ⟨6, [3]⟩]

/-! ## Auxiliary definitions used in the statements -/

/-- The list `perm` with `v` inserted at position `i`. -/
def insertAt (perm : List Int) (i : Nat) (v : Int) : List Int :=
  perm.take i ++ v :: perm.drop i

/-- All insertions of `v` into `perm`, leftmost position first. -/
def insertions (perm : List Int) (v : Int) : List (List Int) :=
  (List.range (perm.length + 1)).map (fun i => insertAt perm i v)

/-- The list `generatePermutations` builds for `n = k + 1`, written as a pure
recursion on `k`. -/
def insertionPerms : Nat → List (List Int)
  | 0 => [[0]]
  | k + 1 => (insertionPerms k).flatMap (fun perm => insertions perm ((k : Int) + 1))

/-- The task indices `0, 1, …, n-1` in increasing order. -/
def taskIndices (n : Nat) : List Int := (List.range n).map (fun i : Nat => (i : Int))

/-- Two tasks, task 1 depending on task 0. -/
def chainTasks : List Task := [⟨2, []⟩, ⟨3, [0]⟩]

/-- Three independent tasks: every ordering is valid and all of them tie. -/
def freeTasks : List Task := [⟨1, []⟩, ⟨1, []⟩, ⟨1, []⟩]

/-- Task `a` lists task `b` among its dependencies. -/
def dependsOn (tasks : List Task) (a b : Int) : Prop :=
  ∃ task, index tasks a = Except.ok task ∧ b ∈ task.depends

/-- The dependency relation has no cycle: no task reaches itself by following
one or more dependency edges (a self-dependency is a cycle of length one). -/
def acyclic (tasks : List Task) : Prop :=
  ∀ a : Int, ¬ Relation.TransGen (dependsOn tasks) a a

/-- The duration of the task with index `idx` (0 outside the task list). -/
def durationOf (tasks : List Task) (idx : Int) : Int :=
  match index tasks idx with
  | Except.ok task => task.duration
  | Except.error _ => 0

/-- Task `a` is placed before task `b` in `order`. -/
def placedBefore (order : List Int) (a b : Int) : Prop :=
  order.indexOf a < order.indexOf b

instance (order : List Int) (a b : Int) : Decidable (placedBefore order a b) := by
  unfold placedBefore
  infer_instance

/-- The recursion that the loop of `calculateTime` computes on a permutation,
with Go's wrapping `int` addition: `specFinish … idx` is
`addInt (duration idx) (min(2^31-1, S(idx,1), …, S(idx,W)))`, where
`S(idx,k) = 0` when `idx-k < 0` or task `idx-k` is placed after task `idx`, and
`S(idx,k)` is the value at `idx-k` otherwise.  It is a device of the proofs; the
recursion with exact addition is `exactFinish`.  The first argument bounds the
depth of the recursion; any value above `idx` gives the same result. -/
def specFinish (tasks : List Task) (order : List Int) (numWorkers : Int) : Nat → Int → Int
  | 0, _ => 0
  | depth + 1, idx =>
    addInt (durationOf tasks idx)
      (((List.range numWorkers.toNat).map (fun i : Nat =>
          if idx - ((i : Int) + 1) < 0 ∨ placedBefore order idx (idx - ((i : Int) + 1)) then 0
          else specFinish tasks order numWorkers depth (idx - ((i : Int) + 1)))).foldl
        Min.min maxInt32)

/-- The recursive description `F` of the estimate, with exact integer
arithmetic: `exactFinish … idx` is
`F(idx) = duration(idx) + min(2^31-1, S(idx,1), …, S(idx,W))`, where
`S(idx,k) = 0` when `idx-k < 0` or task `idx-k` is placed after task `idx`, and
`S(idx,k) = F(idx-k)` otherwise.  The first argument bounds the depth of the
recursion; any value above `idx` gives the same result. -/
def exactFinish (tasks : List Task) (order : List Int) (numWorkers : Int) : Nat → Int → Int
  | 0, _ => 0
  | depth + 1, idx =>
    durationOf tasks idx +
      (((List.range numWorkers.toNat).map (fun i : Nat =>
          if idx - ((i : Int) + 1) < 0 ∨ placedBefore order idx (idx - ((i : Int) + 1)) then 0
          else exactFinish tasks order numWorkers depth (idx - ((i : Int) + 1)))).foldl
        Min.min maxInt32)

/-- The value the worker loop reads for iteration `i`. -/
def slot (times : List Int) (taskIndex : Int) (i : Nat) : Int :=
  if taskIndex - i - 1 < 0 then 0 else (times[(taskIndex - i - 1).toNat]?).getD 0

/-- The completion time of the last task to finish: the largest entry of the
finish-time slice (0 for an empty slice). -/
def latestFinish (times : List Int) : Int := times.foldl max 0

/-- A single task that lists itself as a dependency. -/
def selfTasks : List Task := [⟨1, [0]⟩]

/-- Two tasks depending on each other. -/
def cycleTasks : List Task := [⟨1, [1]⟩, ⟨1, [0]⟩]

/-- Two tasks depending on each other and a third one with a dependency index
outside the task list. -/
def cycleDanglingTasks : List Task := [⟨1, [1]⟩, ⟨1, [0]⟩, ⟨1, [7]⟩]

/-- Two tasks depending on each other, the second one also listing a
dependency index outside the task list. -/
def quietDanglingTasks : List Task := [⟨1, [1]⟩, ⟨1, [0, 5]⟩]

/-- Three tasks in a dependency chain `0 ← 1 ← 2`. -/
def chainTasks3 : List Task := [⟨4, []⟩, ⟨2, [0]⟩, ⟨5, [1]⟩]

/-- The sum of the durations of a list of tasks. -/
def durationSum (tasks : List Task) : Int := (tasks.map (fun t => t.duration)).sum

/-- The largest duration for which `minTime + duration` cannot leave the
64-bit range: `math.MaxInt64 - math.MaxInt32`. -/
def maxDuration : Int := 9223372034707292160

/-- Two tasks whose durations add up to one more than `math.MaxInt64`. -/
def overflowTasks : List Task := [⟨1, []⟩, ⟨9223372036854775807, []⟩]

/-! ## Lemmas -/

/-- On values inside the 64-bit range the reduction `wrapInt` is the identity. -/
theorem wrapInt_eq_self (x : Int) (h1 : -9223372036854775808 ≤ x)
    (h2 : x < 9223372036854775808) : wrapInt x = x := by
  unfold wrapInt
  omega

/-- Go's addition is the mathematical one whenever the sum fits a 64-bit `int`. -/
theorem addInt_eq_add (a b : Int) (h1 : -9223372036854775808 ≤ a + b)
    (h2 : a + b < 9223372036854775808) : addInt a b = a + b :=
  wrapInt_eq_self (a + b) h1 h2

theorem copy_nil (dst : List Int) : copy dst [] = dst := by simp [copy]

theorem copy_same_length (dst src : List Int) (h : src.length = dst.length) : copy dst src = src := by
  unfold copy
  rw [← h, List.take_length, h, List.drop_length, List.append_nil]

theorem newPerm_eq (n : Int) (perm : List Int) (i : Nat)
    (hn : n = perm.length + 1) (hi : i ≤ perm.length) :
    newPerm n perm i = Except.ok (insertAt perm i (n - 1)) := by
  have hnat : n.toNat = perm.length + 1 := by omega
  unfold newPerm insertAt
  rw [if_neg (by omega)]
  simp only [hnat]
  congr 1
  have h1 : copy (List.replicate (perm.length + 1) 0) (List.take i perm)
      = List.take i perm ++ (0 : Int) :: List.replicate (perm.length - i) 0 := by
    simp only [copy, List.length_replicate, List.length_take, List.drop_replicate]
    rw [List.take_take, Nat.min_eq_right (by omega : i ≤ perm.length + 1), Nat.min_eq_left hi]
    have : perm.length + 1 - i = (perm.length - i) + 1 := by omega
    rw [this, List.replicate_succ]
  have hlen : (List.take i perm).length = i := by simp [hi]
  rw [h1]
  rw [List.set_append_right _ _ (by omega)]
  simp only [hlen, Nat.sub_self, List.set_cons_zero]
  rw [List.take_append_eq_append_take, List.drop_append_eq_append_drop]
  simp only [hlen]
  have e1 : i + 1 - i = 1 := by omega
  simp only [e1, List.take_succ_cons, List.take_zero, List.drop_succ_cons, List.drop_zero]
  rw [List.take_of_length_le (by simp), List.drop_of_length_le (by simp [hi])]
  rw [copy_same_length _ _ (by simp)]
  simp

theorem insertLoop_eq (n : Int) (perm : List Int) (hn : n = perm.length + 1) :
    ∀ (is : List Nat) (perms : List (List Int)), (∀ i ∈ is, i ≤ perm.length) →
      insertLoop n perm is perms
        = Except.ok (perms ++ is.map (fun i => insertAt perm i (n - 1))) := by
  intro is
  induction is with
  | nil => intro perms _; simp [insertLoop]
  | cons i is ih =>
    intro perms h
    rw [insertLoop, newPerm_eq n perm i hn (h i (List.mem_cons_self _ _))]
    simp only
    rw [ih _ (fun j hj => h j (List.mem_cons_of_mem _ hj))]
    simp

theorem permLoop_eq (n : Int) :
    ∀ (ps perms : List (List Int)), (∀ p ∈ ps, n = (p.length : Int) + 1) →
      permLoop n ps perms
        = Except.ok (perms ++ ps.flatMap (fun p => insertions p (n - 1))) := by
  intro ps
  induction ps with
  | nil => intro perms _; simp [permLoop]
  | cons p ps ih =>
    intro perms h
    have hp := h p (List.mem_cons_self _ _)
    have hnat : n.toNat = p.length + 1 := by omega
    rw [permLoop, insertLoop_eq n p hp _ _ (by
      intro i hi
      rw [hnat, List.mem_range] at hi
      omega)]
    simp only
    rw [ih _ (fun q hq => h q (List.mem_cons_of_mem _ hq))]
    simp [insertions, hnat]

theorem length_insertAt (perm : List Int) (i : Nat) (v : Int) (hi : i ≤ perm.length) :
    (insertAt perm i v).length = perm.length + 1 := by
  simp [insertAt]; omega

theorem length_of_mem_insertionPerms :
    ∀ (k : Nat) (p : List Int), p ∈ insertionPerms k → p.length = k + 1 := by
  intro k
  induction k with
  | zero => intro p hp; simp [insertionPerms] at hp; simp [hp]
  | succ k ih =>
    intro p hp
    simp only [insertionPerms, insertions, List.mem_flatMap, List.mem_map, List.mem_range] at hp
    obtain ⟨q, hq, i, hi, rfl⟩ := hp
    rw [length_insertAt _ _ _ (by omega), ih q hq]

theorem generatePermutations_eq :
    ∀ (k fuel : Nat), k + 1 ≤ fuel →
      generatePermutations fuel ((k : Int) + 1) = Except.ok (insertionPerms k) := by
  intro k
  induction k with
  | zero =>
    intro fuel h
    obtain ⟨f, rfl⟩ : ∃ f, fuel = f + 1 := ⟨fuel - 1, by omega⟩
    simp [generatePermutations, insertionPerms]
  | succ k ih =>
    intro fuel h
    obtain ⟨f, rfl⟩ : ∃ f, fuel = f + 1 := ⟨fuel - 1, by omega⟩
    rw [generatePermutations, if_neg (by push_cast; omega)]
    have e : ((k + 1 : Nat) : Int) + 1 - 1 = (k : Int) + 1 := by push_cast; omega
    rw [e, ih f (by omega)]
    simp only
    rw [permLoop_eq _ _ _ (by
      intro p hp
      rw [length_of_mem_insertionPerms k p hp])]
    simp [insertionPerms]

theorem generatePermutations_diverges :
    ∀ (fuel : Nat) (n : Int), n ≤ 0 →
      generatePermutations fuel n = Except.error Fault.stackExhausted := by
  intro fuel
  induction fuel with
  | zero => intro n _; rfl
  | succ f ih =>
    intro n hn
    rw [generatePermutations, if_neg (by omega), ih (n - 1) (by omega)]

theorem mem_taskIndices (n : Nat) (x : Int) : x ∈ taskIndices n ↔ 0 ≤ x ∧ x < n := by
  simp only [taskIndices, List.mem_map, List.mem_range]
  constructor
  · rintro ⟨i, hi, rfl⟩; omega
  · rintro ⟨h0, h1⟩; exact ⟨x.toNat, by omega, by omega⟩

theorem taskIndices_succ (n : Nat) : taskIndices (n + 1) = taskIndices n ++ [(n : Int)] := by
  simp [taskIndices, List.range_succ]

theorem nodup_taskIndices (n : Nat) : (taskIndices n).Nodup := by
  unfold taskIndices
  exact List.Nodup.map (fun a b h => by exact_mod_cast h) (List.nodup_range n)

theorem sorted_taskIndices (n : Nat) : (taskIndices n).Sorted (· ≤ ·) := by
  unfold taskIndices
  have h := List.sorted_le_range n
  unfold List.Sorted at h ⊢
  rw [List.pairwise_map]
  exact h.imp (fun h => by exact_mod_cast h)

theorem insertAt_perm (perm : List Int) (i : Nat) (v : Int) :
    List.Perm (insertAt perm i v) (v :: perm) := by
  unfold insertAt
  exact List.perm_middle.trans (List.Perm.cons v (by rw [List.take_append_drop]))

theorem perm_of_mem_insertionPerms :
    ∀ (k : Nat) (p : List Int), p ∈ insertionPerms k → List.Perm p (taskIndices (k + 1)) := by
  intro k
  induction k with
  | zero => intro p hp; simp [insertionPerms] at hp; subst hp; exact List.Perm.refl _
  | succ k ih =>
    intro p hp
    simp only [insertionPerms, insertions, List.mem_flatMap, List.mem_map, List.mem_range] at hp
    obtain ⟨q, hq, i, _, rfl⟩ := hp
    rw [taskIndices_succ (k + 1)]
    refine (insertAt_perm q i _).trans ?_
    refine (List.Perm.cons _ (ih q hq)).trans ?_
    have : (((k + 1 : Nat) : Int)) = (k : Int) + 1 := by push_cast; rfl
    rw [this]
    exact (List.perm_append_singleton _ _).symm

theorem erase_insertAt (perm : List Int) (i : Nat) (v : Int) (hv : v ∉ perm) :
    (insertAt perm i v).erase v = perm := by
  unfold insertAt
  rw [List.erase_append_right _ (fun h => hv (List.mem_of_mem_take h)), List.erase_cons_head,
    List.take_append_drop]

theorem indexOf_insertAt (perm : List Int) (i : Nat) (v : Int) (hv : v ∉ perm)
    (hi : i ≤ perm.length) : (insertAt perm i v).indexOf v = i := by
  unfold insertAt
  rw [List.indexOf_append_of_not_mem (fun h => hv (List.mem_of_mem_take h)),
    List.indexOf_cons_self, List.length_take]
  omega

theorem nodup_insertions (perm : List Int) (v : Int) (hv : v ∉ perm) :
    (insertions perm v).Nodup := by
  unfold insertions
  refine List.Nodup.map_on ?_ (List.nodup_range _)
  intro i hi j hj h
  rw [List.mem_range] at hi hj
  rw [← indexOf_insertAt perm i v hv (by omega), h, indexOf_insertAt perm j v hv (by omega)]

theorem not_mem_of_mem_insertionPerms (k : Nat) (p : List Int) (hp : p ∈ insertionPerms k) :
    ((k : Int) + 1) ∉ p := by
  intro h
  have := (perm_of_mem_insertionPerms k p hp).mem_iff.mp h
  rw [mem_taskIndices] at this
  omega

theorem nodup_insertionPerms : ∀ k : Nat, (insertionPerms k).Nodup := by
  intro k
  induction k with
  | zero => simp [insertionPerms]
  | succ k ih =>
    rw [insertionPerms, List.nodup_flatMap]
    refine ⟨fun p hp => nodup_insertions p _ (not_mem_of_mem_insertionPerms k p hp), ?_⟩
    refine List.Pairwise.imp_of_mem ?_ ih
    intro p q hp hq hne
    show List.Disjoint _ _
    intro x hx hy
    simp only [insertions, List.mem_map, List.mem_range] at hx hy
    obtain ⟨i, _, rfl⟩ := hx
    obtain ⟨j, _, hj⟩ := hy
    apply hne
    rw [← erase_insertAt p i _ (not_mem_of_mem_insertionPerms k p hp), ← hj,
      erase_insertAt q j _ (not_mem_of_mem_insertionPerms k q hq)]

theorem length_flatMap_insertions (m : Nat) (v : Int) :
    ∀ l : List (List Int), (∀ p ∈ l, p.length = m) →
      (l.flatMap (fun p => insertions p v)).length = l.length * (m + 1) := by
  intro l
  induction l with
  | nil => intro _; simp
  | cons p l ih =>
    intro h
    rw [List.flatMap_cons, List.length_append, ih (fun q hq => h q (List.mem_cons_of_mem _ hq))]
    simp only [insertions, List.length_map, List.length_range, List.length_cons,
      h p (List.mem_cons_self _ _)]
    ring

theorem length_insertionPerms : ∀ k : Nat, (insertionPerms k).length = (k + 1).factorial := by
  intro k
  induction k with
  | zero => simp [insertionPerms]
  | succ k ih =>
    rw [insertionPerms, length_flatMap_insertions (k + 1) _ _ (length_of_mem_insertionPerms k), ih,
      Nat.factorial_succ (k + 1)]
    ring

theorem mem_insertionPerms_of_perm :
    ∀ (k : Nat) (q : List Int), List.Perm q (taskIndices (k + 1)) → q ∈ insertionPerms k := by
  intro k
  induction k with
  | zero =>
    intro q hq
    have : q = [0] := by
      have h := hq
      simp [taskIndices] at h
      exact List.perm_singleton.mp h
    simp [insertionPerms, this]
  | succ k ih =>
    intro q hq
    have hmem : ((k : Int) + 1) ∈ q := by
      rw [hq.mem_iff, mem_taskIndices]; push_cast; omega
    obtain ⟨l1, l2, rfl⟩ := List.append_of_mem hmem
    have hrest : List.Perm (l1 ++ l2) (taskIndices (k + 1)) := by
      have h1 : List.Perm (((k : Int) + 1) :: (l1 ++ l2)) (((k : Int) + 1) :: taskIndices (k + 1)) := by
        refine List.perm_middle.symm.trans (hq.trans ?_)
        rw [taskIndices_succ (k + 1)]
        have : (((k + 1 : Nat) : Int)) = (k : Int) + 1 := by push_cast; rfl
        rw [this]
        exact List.perm_append_singleton _ _
      exact List.Perm.cons_inv h1
    have hin := ih _ hrest
    simp only [insertionPerms, insertions, List.mem_flatMap, List.mem_map, List.mem_range]
    refine ⟨l1 ++ l2, hin, l1.length, by simp; omega, ?_⟩
    simp [insertAt]

theorem index_eq_ok {α : Type} (xs : List α) (i : Int) (h0 : 0 ≤ i) (h1 : i.toNat < xs.length) :
    index xs i = Except.ok (xs.get ⟨i.toNat, h1⟩) := by
  unfold index
  rw [if_neg (by omega), List.getElem?_eq_getElem h1]
  rfl

theorem index_eq_ok_iff {α : Type} (xs : List α) (i : Int) (x : α) :
    index xs i = Except.ok x ↔ 0 ≤ i ∧ xs[i.toNat]? = some x := by
  unfold index
  by_cases h : i < 0
  · simp [h]
  · simp only [h, if_false]
    cases hx : xs[i.toNat]? with
    | none => simp
    | some y =>
      simp only [Except.ok.injEq, Option.some.injEq]
      exact ⟨fun e => ⟨by omega, e⟩, fun e => e.2⟩

theorem assign_eq_ok {α : Type} (xs : List α) (i : Int) (v : α) (h0 : 0 ≤ i)
    (h1 : i.toNat < xs.length) : assign xs i v = Except.ok (xs.set i.toNat v) := by
  unfold assign
  rw [if_neg (by omega), if_pos h1]

/-- The inner loop of `isValidOrder` on in-range dependency indices. -/
theorem depsCompleted_spec (completed : List Bool) :
    ∀ deps : List Int, (∀ d ∈ deps, 0 ≤ d ∧ d.toNat < completed.length) →
      (∃ b, depsCompleted completed deps = Except.ok b) ∧
      (depsCompleted completed deps = Except.ok true ↔
        ∀ d ∈ deps, completed[d.toNat]? = some true) := by
  intro deps
  induction deps with
  | nil => intro _; simp [depsCompleted]
  | cons d ds ih =>
    intro h
    obtain ⟨h0, h1⟩ := h d (List.mem_cons_self _ _)
    have ih1 := ih (fun x hx => h x (List.mem_cons_of_mem _ hx))
    rw [depsCompleted, index_eq_ok completed d h0 h1]
    have hget : completed[d.toNat]? = some (completed.get ⟨d.toNat, h1⟩) := by
      rw [List.getElem?_eq_getElem h1]; rfl
    cases hb : completed.get ⟨d.toNat, h1⟩ with
    | false =>
      simp only [List.mem_cons, forall_eq_or_imp, hget, hb]
      simp
    | true =>
      simp only [List.mem_cons, forall_eq_or_imp, hget, hb]
      simpa using ih1

/-- The outer loop of `isValidOrder`, started in the middle of an ordering:
`done` lists the task indices already marked in `completed`. -/
theorem validLoop_spec (tasks : List Task)
    (hdeps : ∀ t ∈ tasks, ∀ d ∈ t.depends, 0 ≤ d ∧ d < tasks.length) :
    ∀ (rest done : List Int) (completed : List Bool),
      completed.length = tasks.length →
      (∀ d : Int, 0 ≤ d → d < tasks.length →
        (completed[d.toNat]? = some true ↔ d ∈ done)) →
      (∀ x ∈ rest, 0 ≤ x ∧ x < tasks.length) →
      (∃ b, validLoop tasks rest completed = Except.ok b) ∧
      (validLoop tasks rest completed = Except.ok true ↔
        ∀ (p : Nat) (t : Int), rest[p]? = some t →
          ∀ task, tasks[t.toNat]? = some task →
            ∀ d ∈ task.depends, d ∈ done ∨ d ∈ rest.take p) := by
  intro rest
  induction rest with
  | nil => intro done completed _ _ _; simp [validLoop]
  | cons t rest ih =>
    intro done completed hlen hinv hrest
    obtain ⟨ht0, ht1⟩ := hrest t (List.mem_cons_self _ _)
    have htn : t.toNat < tasks.length := by omega
    have hget : tasks[t.toNat]? = some (tasks.get ⟨t.toNat, htn⟩) := by
      rw [List.getElem?_eq_getElem htn]; rfl
    have hmem : tasks.get ⟨t.toNat, htn⟩ ∈ tasks := List.get_mem _ _ _
    have hd := hdeps _ hmem
    obtain ⟨⟨b, hb⟩, hiff⟩ := depsCompleted_spec completed (tasks.get ⟨t.toNat, htn⟩).depends
      (fun d hdm => ⟨(hd d hdm).1, by have := (hd d hdm).2; omega⟩)
    rw [validLoop, index_eq_ok tasks t ht0 htn]
    simp only
    cases b with
    | false =>
      rw [hb]
      refine ⟨⟨false, rfl⟩, ⟨fun h => by simp at h, fun hall => ?_⟩⟩
      exfalso
      have hnot : ¬ ∀ d ∈ (tasks.get ⟨t.toNat, htn⟩).depends, completed[d.toNat]? = some true := by
        rw [← hiff, hb]; simp
      apply hnot
      intro d hdm
      have := hall 0 t (by simp) _ hget d hdm
      simp only [List.take_zero, List.not_mem_nil, or_false] at this
      exact (hinv d (hd d hdm).1 (hd d hdm).2).mpr this
    | true =>
      rw [hb]
      simp only
      rw [assign_eq_ok completed t true ht0 (by omega)]
      simp only
      have hall0 := hiff.mp hb
      obtain ⟨hex, hi⟩ := ih (t :: done) (completed.set t.toNat true)
        (by simpa using hlen)
        (by
          intro d hd0 hd1
          rw [List.getElem?_set]
          by_cases e : t.toNat = d.toNat
          · have : d = t := by omega
            simp [e, this]; omega
          · have : d ≠ t := fun h => e (by rw [h])
            simp [e, this, hinv d hd0 hd1])
        (fun x hx => hrest x (List.mem_cons_of_mem _ hx))
      refine ⟨hex, hi.trans ⟨?_, ?_⟩⟩
      · intro h p
        cases p with
        | zero =>
          intro t1 ht1e task htask d hdm
          simp only [List.getElem?_cons_zero, Option.some.injEq] at ht1e
          subst ht1e
          rw [hget] at htask
          simp only [Option.some.injEq] at htask
          subst htask
          exact Or.inl ((hinv d (hd d hdm).1 (hd d hdm).2).mp (hall0 d hdm))
        | succ p =>
          intro t1 ht1e task htask d hdm
          simp only [List.getElem?_cons_succ] at ht1e
          have := h p t1 ht1e task htask d hdm
          simp only [List.mem_cons, List.take_succ_cons] at this ⊢
          tauto
      · intro h p t1 ht1e task htask d hdm
        have := h (p + 1) t1 (by simpa using ht1e) task htask d hdm
        simp only [List.mem_cons, List.take_succ_cons] at this ⊢
        tauto

theorem mem_take_iff_getElem? (l : List Int) (p : Nat) (d : Int) :
    d ∈ l.take p ↔ ∃ q, q < p ∧ l[q]? = some d := by
  rw [List.mem_iff_getElem?]
  constructor
  · rintro ⟨q, hq⟩
    rw [List.getElem?_take] at hq
    by_cases h : q < p
    · exact ⟨q, h, by simpa [h] using hq⟩
    · simp [h] at hq
  · rintro ⟨q, hq, he⟩
    exact ⟨q, by rw [List.getElem?_take]; simpa [hq] using he⟩

/-- The worker loop of `calculateTime` never reads outside `times`: the slots
it looks at lie below `taskIndex`. -/
theorem minLoop_total (times : List Int) (taskIndex : Int) (ht : taskIndex.toNat < times.length) :
    ∀ (is : List Nat) (minTime : Int), ∃ m, minLoop times taskIndex is minTime = Except.ok m := by
  intro is
  induction is with
  | nil => intro minTime; exact ⟨minTime, rfl⟩
  | cons i is ih =>
    intro minTime
    rw [minLoop]
    by_cases h : taskIndex - i - 1 < 0
    · simp only [h, if_true]
      rw [if_neg (by omega)]
      exact ih _
    · simp only [h, if_false]
      rw [if_pos (by omega), index_eq_ok times _ (by omega) (by omega)]
      exact ih _

theorem timeLoop_total (tasks : List Task) (numWorkers : Int) :
    ∀ (order times : List Int), times.length = tasks.length →
      (∀ x ∈ order, 0 ≤ x ∧ x < tasks.length) →
      ∃ times1, timeLoop tasks numWorkers order times = Except.ok times1 ∧
        times1.length = tasks.length := by
  intro order
  induction order with
  | nil => intro times hlen _; exact ⟨times, rfl, hlen⟩
  | cons t rest ih =>
    intro times hlen h
    obtain ⟨h0, h1⟩ := h t (List.mem_cons_self _ _)
    have htn : t.toNat < tasks.length := by omega
    obtain ⟨m, hm⟩ := minLoop_total times t (by omega) (List.range numWorkers.toNat) maxInt32
    rw [timeLoop, index_eq_ok tasks t h0 htn]
    simp only
    rw [hm]
    simp only
    rw [assign_eq_ok times t _ h0 (by omega)]
    exact ih _ (by simpa using hlen) (fun x hx => h x (List.mem_cons_of_mem _ hx))

theorem calculateTime_total (tasks : List Task) (numWorkers : Int) (order : List Int)
    (hN : 1 ≤ tasks.length) (h : ∀ x ∈ order, 0 ≤ x ∧ x < tasks.length) :
    ∃ t, calculateTime order tasks numWorkers = Except.ok t := by
  obtain ⟨times, ht, hlen⟩ := timeLoop_total tasks numWorkers order
    (List.replicate tasks.length 0) (by simp) h
  unfold calculateTime finishTimes
  rw [ht]
  simp only
  rw [index_eq_ok times _ (by omega) (by omega)]
  exact ⟨_, rfl⟩

theorem searchLoop_total (tasks : List Task) (numWorkers : Int) :
    ∀ (ps : List (List Int)),
      (∀ q ∈ ps, ∃ b, isValidOrder q tasks = Except.ok b) →
      (∀ q ∈ ps, ∃ t, calculateTime q tasks numWorkers = Except.ok t) →
      ∀ best, ∃ best1, searchLoop tasks numWorkers ps best = Except.ok best1 := by
  intro ps
  induction ps with
  | nil => intro _ _ best; exact ⟨best, rfl⟩
  | cons q rest ih =>
    intro hv ht best
    obtain ⟨b, hb⟩ := hv q (List.mem_cons_self _ _)
    obtain ⟨t, htq⟩ := ht q (List.mem_cons_self _ _)
    have ih1 := ih (fun x hx => hv x (List.mem_cons_of_mem _ hx))
      (fun x hx => ht x (List.mem_cons_of_mem _ hx))
    rw [searchLoop, hb]
    cases b with
    | false => exact ih1 best
    | true =>
      simp only
      rw [htq]
      simp only
      split
      · exact ih1 _
      · exact ih1 _

/-- What the search loop leaves in `(bestOrder, bestTime)`: either nothing beat
the incoming best time, or the pair holds the first candidate of strictly
smallest time. -/
theorem searchLoop_spec (tasks : List Task) (numWorkers : Int) :
    ∀ (ps : List (List Int)) (best best1 : List Int × Int),
      (∀ q ∈ ps, q.length = best.1.length) →
      searchLoop tasks numWorkers ps best = Except.ok best1 →
      (best1 = best ∧
        ∀ q ∈ ps, isValidOrder q tasks = Except.ok true →
          ∀ t, calculateTime q tasks numWorkers = Except.ok t → best.2 ≤ t) ∨
      (∃ i, ps[i]? = some best1.1 ∧ isValidOrder best1.1 tasks = Except.ok true ∧
        calculateTime best1.1 tasks numWorkers = Except.ok best1.2 ∧ best1.2 < best.2 ∧
        (∀ q ∈ ps, isValidOrder q tasks = Except.ok true →
          ∀ t, calculateTime q tasks numWorkers = Except.ok t → best1.2 ≤ t) ∧
        (∀ (j : Nat) (q : List Int), j < i → ps[j]? = some q →
          isValidOrder q tasks = Except.ok true →
          ∀ t, calculateTime q tasks numWorkers = Except.ok t → best1.2 < t)) := by
  intro ps
  induction ps with
  | nil =>
    intro best best1 _ h
    simp only [searchLoop, Except.ok.injEq] at h
    exact Or.inl ⟨h.symm, by simp⟩
  | cons q rest ih =>
    intro best best1 hlen h
    have hlen1 : ∀ x ∈ rest, x.length = best.1.length :=
      fun x hx => hlen x (List.mem_cons_of_mem _ hx)
    rw [searchLoop] at h
    cases hv : isValidOrder q tasks with
    | error e => rw [hv] at h; simp at h
    | ok b =>
      rw [hv] at h
      cases b with
      | false =>
        simp only at h
        rcases ih best best1 hlen1 h with ⟨he, hall⟩ | ⟨i, hi, hval, htime, hlt, hall, hbefore⟩
        · refine Or.inl ⟨he, ?_⟩
          intro x hx hxv
          rcases List.mem_cons.mp hx with rfl | hx
          · rw [hv] at hxv; simp at hxv
          · exact hall x hx hxv
        · refine Or.inr ⟨i + 1, by simpa using hi, hval, htime, hlt, ?_, ?_⟩
          · intro x hx hxv
            rcases List.mem_cons.mp hx with rfl | hx
            · rw [hv] at hxv; simp at hxv
            · exact hall x hx hxv
          · intro j x hj hjx hxv
            cases j with
            | zero =>
              simp only [List.getElem?_cons_zero, Option.some.injEq] at hjx
              subst hjx
              rw [hv] at hxv; simp at hxv
            | succ j =>
              simp only [List.getElem?_cons_succ] at hjx
              exact hbefore j x (by omega) hjx hxv
      | true =>
        simp only at h
        cases ht : calculateTime q tasks numWorkers with
        | error e => rw [ht] at h; simp at h
        | ok t =>
          rw [ht] at h
          simp only at h
          by_cases hlt : t < best.2
          · rw [if_pos hlt, copy_same_length _ _ (hlen q (List.mem_cons_self _ _))] at h
            rcases ih (q, t) best1
                (fun x hx => by rw [hlen1 x hx]; exact (hlen q (List.mem_cons_self _ _)).symm) h with
              ⟨he, hall⟩ | ⟨i, hi, hval, htime, hlt1, hall, hbefore⟩
            · subst he
              refine Or.inr ⟨0, by simp, hv, ht, hlt, ?_, ?_⟩
              · intro x hx hxv tx htx
                rcases List.mem_cons.mp hx with rfl | hx
                · rw [ht] at htx
                  simp only [Except.ok.injEq] at htx
                  omega
                · exact hall x hx hxv tx htx
              · intro j x hj
                omega
            · simp only at hlt1
              refine Or.inr ⟨i + 1, by simpa using hi, hval, htime, by omega, ?_, ?_⟩
              · intro x hx hxv tx htx
                rcases List.mem_cons.mp hx with rfl | hx
                · rw [ht] at htx
                  simp only [Except.ok.injEq] at htx
                  omega
                · exact hall x hx hxv tx htx
              · intro j x hj hjx hxv tx htx
                cases j with
                | zero =>
                  simp only [List.getElem?_cons_zero, Option.some.injEq] at hjx
                  subst hjx
                  rw [ht] at htx
                  simp only [Except.ok.injEq] at htx
                  omega
                | succ j =>
                  simp only [List.getElem?_cons_succ] at hjx
                  exact hbefore j x (by omega) hjx hxv tx htx
          · rw [if_neg hlt] at h
            rcases ih best best1 hlen1 h with ⟨he, hall⟩ | ⟨i, hi, hval, htime, hlt1, hall, hbefore⟩
            · refine Or.inl ⟨he, ?_⟩
              intro x hx hxv tx htx
              rcases List.mem_cons.mp hx with rfl | hx
              · rw [ht] at htx
                simp only [Except.ok.injEq] at htx
                omega
              · exact hall x hx hxv tx htx
            · refine Or.inr ⟨i + 1, by simpa using hi, hval, htime, hlt1, ?_, ?_⟩
              · intro x hx hxv tx htx
                rcases List.mem_cons.mp hx with rfl | hx
                · rw [ht] at htx
                  simp only [Except.ok.injEq] at htx
                  omega
                · exact hall x hx hxv tx htx
              · intro j x hj hjx hxv tx htx
                cases j with
                | zero =>
                  simp only [List.getElem?_cons_zero, Option.some.injEq] at hjx
                  subst hjx
                  rw [ht] at htx
                  simp only [Except.ok.injEq] at htx
                  omega
                | succ j =>
                  simp only [List.getElem?_cons_succ] at hjx
                  exact hbefore j x (by omega) hjx hxv tx htx

theorem count_eq_one_of_nodup_of_mem {α : Type} [BEq α] [LawfulBEq α] {a : α} :
    ∀ {l : List α}, l.Nodup → a ∈ l → l.count a = 1 := by
  intro l
  induction l with
  | nil => intro _ h; simp at h
  | cons b l ih =>
    intro hd hm
    rw [List.nodup_cons] at hd
    rw [List.count_cons]
    by_cases e : b = a
    · subst e
      simp [List.count_eq_zero_of_not_mem hd.1]
    · have : a ∈ l := by
        rcases List.mem_cons.mp hm with h | h
        · exact absurd h.symm e
        · exact h
      simp [ih hd.2 this, e]

theorem count_eq_one_of_perm_taskIndices (N : Nat) (p : List Int)
    (hp : List.Perm p (taskIndices N)) (i : Nat) (hi : i < N) : p.count (i : Int) = 1 := by
  rw [hp.count_eq]
  exact List.count_eq_one_of_mem (nodup_taskIndices N) ((mem_taskIndices N _).mpr ⟨by omega, by omega⟩)

theorem insertionSort_eq_of_perm_taskIndices (N : Nat) (p : List Int)
    (hp : List.Perm p (taskIndices N)) : p.insertionSort (· ≤ ·) = taskIndices N :=
  List.eq_of_perm_of_sorted ((List.perm_insertionSort _ p).trans hp)
    (List.sorted_insertionSort _ p) (sorted_taskIndices N)

theorem generatePermutations_short_fuel :
    ∀ (fuel k : Nat), fuel ≤ k →
      generatePermutations fuel ((k : Int) + 1) = Except.error Fault.stackExhausted := by
  intro fuel
  induction fuel with
  | zero => intro k _; rfl
  | succ f ih =>
    intro k hk
    obtain ⟨j, rfl⟩ : ∃ j, k = j + 1 := ⟨k - 1, by omega⟩
    rw [generatePermutations, if_neg (by omega)]
    have e : ((j + 1 : Nat) : Int) + 1 - 1 = (j : Int) + 1 := by push_cast; omega
    rw [e, ih j (by omega)]

/-- Whenever `generatePermutations` returns, its argument was at least 1 and
the result is the insertion enumeration. -/
theorem generatePermutations_ok (fuel : Nat) (n : Int) (perms : List (List Int))
    (h : generatePermutations fuel n = Except.ok perms) :
    ∃ k : Nat, n = (k : Int) + 1 ∧ k + 1 ≤ fuel ∧ perms = insertionPerms k := by
  by_cases hn : n ≤ 0
  · rw [generatePermutations_diverges fuel n hn] at h; simp at h
  · obtain ⟨k, rfl⟩ : ∃ k : Nat, n = (k : Int) + 1 := ⟨(n - 1).toNat, by omega⟩
    by_cases hf : k + 1 ≤ fuel
    · rw [generatePermutations_eq k fuel hf] at h
      simp only [Except.ok.injEq] at h
      exact ⟨k, rfl, hf, h.symm⟩
    · rw [generatePermutations_short_fuel fuel k (by omega)] at h; simp at h

theorem depsCompleted_true_range (completed : List Bool) :
    ∀ deps : List Int, depsCompleted completed deps = Except.ok true →
      ∀ d ∈ deps, 0 ≤ d ∧ d.toNat < completed.length := by
  intro deps
  induction deps with
  | nil => intro _ d hd; simp at hd
  | cons x xs ih =>
    intro h d hd
    rw [depsCompleted] at h
    cases hx : index completed x with
    | error e => rw [hx] at h; simp at h
    | ok b =>
      rw [hx] at h
      cases b with
      | false => simp at h
      | true =>
        simp only at h
        rcases List.mem_cons.mp hd with rfl | hd
        · obtain ⟨h0, h1⟩ := (index_eq_ok_iff completed d true).mp hx
          refine ⟨h0, ?_⟩
          by_contra hge
          rw [List.getElem?_eq_none (by omega)] at h1
          simp at h1
        · exact ih h d hd

theorem assign_length {α : Type} (xs xs1 : List α) (i : Int) (v : α)
    (h : assign xs i v = Except.ok xs1) : xs1.length = xs.length := by
  unfold assign at h
  split at h
  · simp at h
  · split at h
    · simp only [Except.ok.injEq] at h
      rw [← h, List.length_set]
    · simp at h

theorem validLoop_true_range (tasks : List Task) :
    ∀ (rest : List Int) (completed : List Bool),
      validLoop tasks rest completed = Except.ok true →
      ∀ t ∈ rest, ∃ task, index tasks t = Except.ok task ∧
        ∀ d ∈ task.depends, 0 ≤ d ∧ d.toNat < completed.length := by
  intro rest
  induction rest with
  | nil => intro _ _ t ht; simp at ht
  | cons x xs ih =>
    intro completed h t ht
    rw [validLoop] at h
    cases hx : index tasks x with
    | error e => rw [hx] at h; simp at h
    | ok task =>
      rw [hx] at h
      simp only at h
      cases hd : depsCompleted completed task.depends with
      | error e => rw [hd] at h; simp at h
      | ok b =>
        rw [hd] at h
        cases b with
        | false => simp at h
        | true =>
          simp only at h
          cases ha : assign completed x true with
          | error e => rw [ha] at h; simp at h
          | ok completed1 =>
            rw [ha] at h
            simp only at h
            rcases List.mem_cons.mp ht with rfl | ht
            · exact ⟨task, hx, depsCompleted_true_range completed _ hd⟩
            · have := ih completed1 h t ht
              rw [assign_length completed completed1 x true ha] at this
              exact this

theorem deps_in_range_of_valid (tasks : List Task) (q : List Int)
    (hq : List.Perm q (taskIndices tasks.length))
    (hv : isValidOrder q tasks = Except.ok true) :
    ∀ t ∈ tasks, ∀ d ∈ t.depends, 0 ≤ d ∧ d < tasks.length := by
  intro t ht d hd
  obtain ⟨i, hi, hti⟩ := List.getElem_of_mem ht
  have hmem : ((i : Nat) : Int) ∈ q := by
    rw [hq.mem_iff, mem_taskIndices]; omega
  obtain ⟨task, htask, hr⟩ := validLoop_true_range tasks q _ hv _ hmem
  have e := (index_eq_ok_iff tasks (i : Int) task).mp htask
  have e2 : tasks[i]? = some task := by simpa using e.2
  rw [List.getElem?_eq_getElem hi, hti] at e2
  simp only [Option.some.injEq] at e2
  subst e2
  have := hr d hd
  simp only [List.length_replicate] at this
  omega

theorem range_of_perm_taskIndices (N : Nat) (q : List Int) (hq : List.Perm q (taskIndices N)) :
    ∀ x ∈ q, 0 ≤ x ∧ x < N := by
  intro x hx
  exact (mem_taskIndices N x).mp (hq.mem_iff.mp hx)

theorem findOptimalOrder_unfold (tasks : List Task) (numWorkers : Int) (fuel k : Nat)
    (hlen : tasks.length = k + 1) (hfuel : k + 1 ≤ fuel) :
    findOptimalOrder fuel tasks numWorkers =
      match searchLoop tasks numWorkers (insertionPerms k)
          (List.replicate tasks.length 0, maxInt32) with
      | Except.error e => Except.error e
      | Except.ok best => Except.ok best.1 := by
  unfold findOptimalOrder
  have : ((tasks.length : Nat) : Int) = (k : Int) + 1 := by rw [hlen]; push_cast; rfl
  simp only [this, generatePermutations_eq k fuel hfuel]

theorem findOptimalOrder_ok (tasks : List Task) (numWorkers : Int) (fuel : Nat) (r : List Int)
    (h : findOptimalOrder fuel tasks numWorkers = Except.ok r) :
    ∃ (k : Nat) (best : List Int × Int), tasks.length = k + 1 ∧ k + 1 ≤ fuel ∧
      generatePermutations fuel (tasks.length : Int) = Except.ok (insertionPerms k) ∧
      searchLoop tasks numWorkers (insertionPerms k) (List.replicate tasks.length 0, maxInt32)
        = Except.ok best ∧ r = best.1 := by
  unfold findOptimalOrder at h
  cases hg : generatePermutations fuel (tasks.length : Int) with
  | error e => rw [hg] at h; simp at h
  | ok perms =>
    rw [hg] at h
    simp only at h
    obtain ⟨k, hk, hf, rfl⟩ := generatePermutations_ok fuel _ perms hg
    cases hs : searchLoop tasks numWorkers (insertionPerms k)
        (List.replicate tasks.length 0, maxInt32) with
    | error e => rw [hs] at h; simp at h
    | ok best =>
      rw [hs] at h
      simp only [Except.ok.injEq] at h
      exact ⟨k, best, by omega, hf, rfl, hs, h.symm⟩

/-- With in-range dependency lists the search loop runs to its end on the
insertion enumeration. -/
theorem searchLoop_insertionPerms_total (tasks : List Task) (numWorkers : Int) (k : Nat)
    (hlen : tasks.length = k + 1)
    (hdeps : ∀ t ∈ tasks, ∀ d ∈ t.depends, 0 ≤ d ∧ d < tasks.length) (best : List Int × Int) :
    ∃ best1, searchLoop tasks numWorkers (insertionPerms k) best = Except.ok best1 := by
  have hr : ∀ q ∈ insertionPerms k, ∀ x ∈ q, 0 ≤ x ∧ x < tasks.length := by
    intro q hq
    rw [hlen]
    exact range_of_perm_taskIndices _ q (perm_of_mem_insertionPerms k q hq)
  refine searchLoop_total tasks numWorkers _ ?_ ?_ best
  · intro q hq
    exact (validLoop_spec tasks hdeps q [] (List.replicate tasks.length false) (by simp) (by
      intro d hd0 hd1
      simp only [List.not_mem_nil, iff_false]
      intro h
      rw [List.getElem?_replicate] at h
      split at h <;> simp at h) (hr q hq)).1
  · intro q hq
    exact calculateTime_total tasks numWorkers q (by omega) (hr q hq)

/-- The two ways `findOptimalOrder` can end with a value: the placeholder is
still in place because no valid candidate scored below `math.MaxInt32`, or the
result is the first candidate with the strictly smallest score. -/
theorem findOptimalOrder_cases (tasks : List Task) (numWorkers : Int) (fuel : Nat) (r : List Int)
    (h : findOptimalOrder fuel tasks numWorkers = Except.ok r) :
    ∃ k : Nat, tasks.length = k + 1 ∧ k + 1 ≤ fuel ∧
      generatePermutations fuel (tasks.length : Int) = Except.ok (insertionPerms k) ∧
      ((r = List.replicate tasks.length 0 ∧
          ∀ q ∈ insertionPerms k, isValidOrder q tasks = Except.ok true →
            ∀ t, calculateTime q tasks numWorkers = Except.ok t → maxInt32 ≤ t) ∨
        (∃ (i : Nat) (tr : Int), (insertionPerms k)[i]? = some r ∧
          isValidOrder r tasks = Except.ok true ∧
          calculateTime r tasks numWorkers = Except.ok tr ∧ tr < maxInt32 ∧
          (∀ q ∈ insertionPerms k, isValidOrder q tasks = Except.ok true →
            ∀ t, calculateTime q tasks numWorkers = Except.ok t → tr ≤ t) ∧
          (∀ (j : Nat) (q : List Int), j < i → (insertionPerms k)[j]? = some q →
            isValidOrder q tasks = Except.ok true →
            ∀ t, calculateTime q tasks numWorkers = Except.ok t → tr < t))) := by
  obtain ⟨k, best, hlen, hfuel, hgen, hs, rfl⟩ := findOptimalOrder_ok tasks numWorkers fuel r h
  refine ⟨k, hlen, hfuel, hgen, ?_⟩
  rcases searchLoop_spec tasks numWorkers _ _ best (by
      intro q hq
      rw [length_of_mem_insertionPerms k q hq]
      simp [hlen]) hs with ⟨he, hall⟩ | ⟨i, hi, hv, ht, hlt, hall, hbefore⟩
  · exact Or.inl ⟨by rw [he], hall⟩
  · exact Or.inr ⟨i, best.2, hi, hv, ht, hlt, hall, hbefore⟩

theorem replicate_zero_perm (k : Nat)
    (h : List.Perm (List.replicate (k + 1) (0 : Int)) (taskIndices (k + 1))) : k = 0 := by
  have h1 := count_eq_one_of_perm_taskIndices (k + 1) _ h 0 (by omega)
  simp only [Nat.cast_zero, List.count_replicate_self] at h1
  omega

/-- Among the task indices missing from `l` there is one none of whose
dependencies is missing from `l`. -/
theorem exists_ready_task (tasks : List Task)
    (hdeps : ∀ t ∈ tasks, ∀ d ∈ t.depends, 0 ≤ d ∧ d < tasks.length)
    (hacyc : acyclic tasks) (l : List Int) (x : Int)
    (hx : 0 ≤ x ∧ x < tasks.length) (hxl : x ∉ l) :
    ∃ m : Int, 0 ≤ m ∧ m < tasks.length ∧ m ∉ l ∧ ∀ d, dependsOn tasks m d → d ∈ l := by
  let r : Fin tasks.length → Fin tasks.length → Prop :=
    fun b a => Relation.TransGen (dependsOn tasks) ((a : Nat) : Int) ((b : Nat) : Int)
  have htrans : IsTrans (Fin tasks.length) r :=
    ⟨fun a b c hab hbc => Relation.TransGen.trans hbc hab⟩
  have hirr : IsIrrefl (Fin tasks.length) r := ⟨fun a h => hacyc _ h⟩
  have hwf : WellFounded r := Finite.wellFounded_of_trans_of_irrefl r
  have hx' : x.toNat < tasks.length := by omega
  obtain ⟨m, hm, hmin⟩ := hwf.has_min {a : Fin tasks.length | ((a : Nat) : Int) ∉ l}
    ⟨⟨x.toNat, hx'⟩, by
      show ((x.toNat : Nat) : Int) ∉ l
      rw [Int.toNat_of_nonneg hx.1]; exact hxl⟩
  refine ⟨((m : Nat) : Int), by omega, by have := m.2; omega, hm, ?_⟩
  intro d hd
  by_contra hdl
  obtain ⟨task, htask, hmem⟩ := hd
  have hidx := (index_eq_ok_iff tasks _ task).mp htask
  have hrange := hdeps task (List.getElem?_mem hidx.2) d hmem
  have hd' : d.toNat < tasks.length := by omega
  apply hmin ⟨d.toNat, hd'⟩
  · show ((d.toNat : Nat) : Int) ∉ l
    rw [Int.toNat_of_nonneg hrange.1]; exact hdl
  · show Relation.TransGen (dependsOn tasks) ((m : Nat) : Int) ((d.toNat : Nat) : Int)
    rw [Int.toNat_of_nonneg hrange.1]
    exact Relation.TransGen.single ⟨task, htask, hmem⟩

/-- Greedy construction of a dependency-respecting sequence of `m` distinct
task indices. -/
theorem exists_valid_initial_segment (tasks : List Task)
    (hdeps : ∀ t ∈ tasks, ∀ d ∈ t.depends, 0 ≤ d ∧ d < tasks.length)
    (hacyc : acyclic tasks) :
    ∀ m : Nat, m ≤ tasks.length →
      ∃ l : List Int, l.Nodup ∧ l.length = m ∧ (∀ x ∈ l, 0 ≤ x ∧ x < tasks.length) ∧
        ∀ (p : Nat) (t : Int), l[p]? = some t → ∀ task, tasks[t.toNat]? = some task →
          ∀ d ∈ task.depends, d ∈ l.take p := by
  intro m
  induction m with
  | zero => intro _; exact ⟨[], List.nodup_nil, rfl, by simp, by simp⟩
  | succ m ih =>
    intro hm
    obtain ⟨l, hnd, hlen, hrange, hpre⟩ := ih (by omega)
    have hmissing : ∃ x, x ∈ taskIndices tasks.length ∧ x ∉ l := by
      by_contra hcon
      push_neg at hcon
      have := (List.subperm_of_subset (nodup_taskIndices tasks.length) hcon).length_le
      simp only [taskIndices, List.length_map, List.length_range] at this
      omega
    obtain ⟨x, hx, hxl⟩ := hmissing
    obtain ⟨n, hn0, hn1, hnl, hready⟩ := exists_ready_task tasks hdeps hacyc l x
      ((mem_taskIndices _ x).mp hx) hxl
    refine ⟨l ++ [n], ?_, by simp [hlen], ?_, ?_⟩
    · exact List.Nodup.append hnd (List.nodup_singleton n) (by simpa using hnl)
    · intro y hy
      rcases List.mem_append.mp hy with hy | hy
      · exact hrange y hy
      · simp only [List.mem_singleton] at hy
        subst hy
        exact ⟨hn0, hn1⟩
    · intro p t hpt task htask d hd
      by_cases hp : p < l.length
      · rw [List.getElem?_append_left hp] at hpt
        rw [List.take_append_of_le_length (by omega)]
        exact hpre p t hpt task htask d hd
      · have hp' : p = l.length := by
          by_contra hne
          rw [List.getElem?_eq_none (by simp; omega)] at hpt
          simp at hpt
        subst hp'
        simp only [List.getElem?_concat_length, Option.some.injEq] at hpt
        subst hpt
        rw [List.take_left']
        · exact hready d ⟨task, (index_eq_ok_iff tasks _ task).mpr ⟨hn0, htask⟩, hd⟩
        · rfl

/-- The validator on in-range data, with "occurs earlier" written as membership
in the prefix before the position. -/
theorem isValidOrder_spec (tasks : List Task) (order : List Int)
    (hdeps : ∀ t ∈ tasks, ∀ d ∈ t.depends, 0 ≤ d ∧ d < tasks.length)
    (horder : ∀ x ∈ order, 0 ≤ x ∧ x < tasks.length) :
    (∃ b, isValidOrder order tasks = Except.ok b) ∧
    (isValidOrder order tasks = Except.ok true ↔
      ∀ (p : Nat) (t : Int), order[p]? = some t →
        ∀ task, tasks[t.toNat]? = some task → ∀ d ∈ task.depends, d ∈ order.take p) := by
  obtain ⟨hex, hiff⟩ := validLoop_spec tasks hdeps order [] (List.replicate tasks.length false)
    (by simp) (by
      intro d hd0 hd1
      simp only [List.not_mem_nil, iff_false]
      intro h
      rw [List.getElem?_replicate] at h
      split at h <;> simp at h) horder
  refine ⟨hex, ?_⟩
  unfold isValidOrder
  rw [hiff]
  simp only [List.not_mem_nil, false_or]

theorem dependsOn_chainTasks (a b : Int) (h : dependsOn chainTasks a b) : b < a := by
  obtain ⟨task, htask, hb⟩ := h
  obtain ⟨h0, h1⟩ := (index_eq_ok_iff chainTasks a task).mp htask
  match hn : a.toNat, h1 with
  | 0, h1 =>
    simp [chainTasks] at h1
    subst h1
    simp at hb
  | 1, h1 =>
    simp [chainTasks] at h1
    subst h1
    simp only [List.mem_singleton] at hb
    omega
  | (n + 2), h1 => simp [chainTasks] at h1

theorem acyclic_chainTasks : acyclic chainTasks := by
  intro a h
  have key : ∀ x y, Relation.TransGen (dependsOn chainTasks) x y → y < x := by
    intro x y hxy
    induction hxy with
    | single h1 => exact dependsOn_chainTasks _ _ h1
    | tail _ h2 ih => have := dependsOn_chainTasks _ _ h2; omega
  have := key a a h
  omega

theorem min_eq_min (a b : Int) : min a b = Min.min a b := by
  unfold min
  split
  · rw [Int.min_def, if_pos (by omega)]
  · rw [Int.min_def]
    split
    · omega
    · rfl

theorem minLoop_eq (times : List Int) (taskIndex : Int) (ht : taskIndex.toNat < times.length) :
    ∀ (is : List Nat) (minTime : Int),
      minLoop times taskIndex is minTime
        = Except.ok ((is.map (slot times taskIndex)).foldl Min.min minTime) := by
  intro is
  induction is with
  | nil => intro minTime; rfl
  | cons i is ih =>
    intro minTime
    rw [minLoop]
    by_cases h : taskIndex - i - 1 < 0
    · simp only [h, if_true]
      rw [if_neg (by omega), ih, min_eq_min]
      simp [slot, h]
    · simp only [h, if_false]
      rw [if_pos (by omega), index_eq_ok times _ (by omega) (by omega)]
      simp only
      rw [ih, min_eq_min]
      have hlt : (taskIndex - i - 1).toNat < times.length := by omega
      have hs : slot times taskIndex i = times.get ⟨(taskIndex - i - 1).toNat, hlt⟩ := by
        unfold slot
        rw [if_neg h, List.getElem?_eq_getElem hlt]
        rfl
      rw [List.map_cons, List.foldl_cons, hs]

theorem specFinish_depth (tasks : List Task) (order : List Int) (numWorkers : Int) :
    ∀ (d1 d2 : Nat) (idx : Int), idx.toNat < d1 → idx.toNat < d2 →
      specFinish tasks order numWorkers d1 idx = specFinish tasks order numWorkers d2 idx := by
  intro d1
  induction d1 with
  | zero => intro d2 idx h; omega
  | succ d1 ih =>
    intro d2 idx h1 h2
    obtain ⟨e2, rfl⟩ : ∃ e, d2 = e + 1 := ⟨d2 - 1, by omega⟩
    rw [specFinish, specFinish]
    congr 2
    apply List.map_congr_left
    intro i _
    by_cases hc : idx - ((i : Int) + 1) < 0 ∨ placedBefore order idx (idx - ((i : Int) + 1))
    · rw [if_pos hc, if_pos hc]
    · rw [if_neg hc, if_neg hc]
      have : ¬ idx - ((i : Int) + 1) < 0 := fun h => hc (Or.inl h)
      exact ih e2 _ (by omega) (by omega)

theorem placedBefore_iff (done rest : List Int) (t j : Int) (ht : t ∉ done) (hj : j ≠ t) :
    placedBefore (done ++ t :: rest) t j ↔ j ∉ done := by
  unfold placedBefore
  rw [List.indexOf_append_of_not_mem ht, List.indexOf_cons_self]
  constructor
  · intro h hmem
    rw [List.indexOf_append_of_mem hmem] at h
    have := List.indexOf_lt_length.mpr hmem
    omega
  · intro hmem
    rw [List.indexOf_append_of_not_mem hmem, List.indexOf_cons_ne _ (Ne.symm hj)]
    omega

theorem addInt_comm (a b : Int) : addInt a b = addInt b a := by
  unfold addInt
  rw [Int.add_comm]

theorem durationOf_eq (tasks : List Task) (t : Int) (task : Task)
    (h : index tasks t = Except.ok task) : durationOf tasks t = task.duration := by
  unfold durationOf
  rw [h]

/-- Invariant of the loop of `calculateTime` on an ordering without repetition:
the tasks already visited hold their `specFinish` value, the others hold 0. -/
theorem timeLoop_spec (tasks : List Task) (order : List Int) (numWorkers : Int)
    (hnd : order.Nodup) (hrange : ∀ x ∈ order, 0 ≤ x ∧ x < tasks.length) :
    ∀ (rest done times : List Int), order = done ++ rest → times.length = tasks.length →
      (∀ j : Nat, j < tasks.length → times[j]? = some
        (if (j : Int) ∈ done then specFinish tasks order numWorkers (j + 1) j else 0)) →
      ∃ times1, timeLoop tasks numWorkers rest times = Except.ok times1 ∧
        times1.length = tasks.length ∧
        ∀ j : Nat, j < tasks.length → times1[j]? = some
          (if (j : Int) ∈ order then specFinish tasks order numWorkers (j + 1) j else 0) := by
  intro rest
  induction rest with
  | nil =>
    intro done times hord hlen hinv
    rw [List.append_nil] at hord
    subst hord
    exact ⟨times, rfl, hlen, hinv⟩
  | cons t rest ih =>
    intro done times hord hlen hinv
    have htmem : t ∈ order := by rw [hord]; simp
    obtain ⟨ht0, ht1⟩ := hrange t htmem
    have htn : t.toNat < tasks.length := by omega
    have htcast : ((t.toNat : Nat) : Int) = t := Int.toNat_of_nonneg ht0
    have htdone : t ∉ done := by
      rw [hord] at hnd
      intro hmem
      exact (List.nodup_append.mp hnd).2.2 hmem (List.mem_cons_self _ _)
    have hidx := index_eq_ok tasks t ht0 htn
    rw [timeLoop, hidx]
    simp only
    rw [minLoop_eq times t (by omega)]
    simp only
    rw [assign_eq_ok times t _ ht0 (by omega)]
    simp only
    have hslots : (List.range numWorkers.toNat).map (slot times t)
        = (List.range numWorkers.toNat).map (fun i : Nat =>
          if t - ((i : Int) + 1) < 0 ∨ placedBefore order t (t - ((i : Int) + 1)) then 0
          else specFinish tasks order numWorkers t.toNat (t - ((i : Int) + 1))) := by
      apply List.map_congr_left
      intro i _
      unfold slot
      by_cases hneg : t - (i : Int) - 1 < 0
      · rw [if_pos hneg, if_pos (Or.inl (by omega))]
      · rw [if_neg hneg]
        have hj1 : (t - (i : Int) - 1).toNat < tasks.length := by omega
        have hjcast : (((t - (i : Int) - 1).toNat : Nat) : Int) = t - ((i : Int) + 1) := by omega
        rw [hinv _ hj1, hjcast]
        simp only [Option.getD_some]
        have hpb := placedBefore_iff done rest t (t - ((i : Int) + 1)) htdone (by omega)
        rw [← hord] at hpb
        by_cases hmem : t - ((i : Int) + 1) ∈ done
        · have hnpb : ¬ placedBefore order t (t - ((i : Int) + 1)) := fun h => hpb.mp h hmem
          rw [if_pos hmem, if_neg (by
            intro h
            rcases h with h | h
            · omega
            · exact hnpb h)]
          have e : (t - (i : Int) - 1).toNat + 1 = (t - ((i : Int) + 1)).toNat + 1 := by omega
          rw [e]
          exact specFinish_depth tasks order numWorkers _ _ _ (by omega) (by omega)
        · rw [if_neg hmem, if_pos (Or.inr (hpb.mpr hmem))]
    obtain ⟨times1, h1, h2, h3⟩ := ih (done ++ [t])
      (times.set t.toNat (addInt
        ((List.map (slot times t) (List.range numWorkers.toNat)).foldl Min.min maxInt32)
        (tasks.get ⟨t.toNat, htn⟩).duration))
      (by rw [hord]; simp) (by simpa using hlen) (by
        intro j hj
        rw [List.getElem?_set]
        by_cases e : t.toNat = j
        · subst e
          rw [if_pos rfl, if_pos (by omega), htcast, if_pos (by simp)]
          congr 1
          rw [specFinish, durationOf_eq tasks t _ hidx, addInt_comm, hslots]
        · rw [if_neg e, hinv j hj]
          have hne : (j : Int) ≠ t := by omega
          simp [hne])
    exact ⟨times1, h1, h2, h3⟩

/-- An estimate can only be returned for a non-empty task list: on zero tasks
the final read `times[numTasks-1]` is out of range. -/
theorem length_pos_of_calculateTime (tasks : List Task) (numWorkers : Int) (q : List Int)
    (t : Int) (hq : List.Perm q (taskIndices tasks.length))
    (ht : calculateTime q tasks numWorkers = Except.ok t) : 1 ≤ tasks.length := by
  by_contra hN
  have h0 : tasks.length = 0 := by omega
  have htasks : tasks = [] := List.length_eq_zero.mp h0
  subst htasks
  have : q = [] := by simpa [taskIndices] using hq
  subst this
  simp [calculateTime, finishTimes, timeLoop, index] at ht

/-- With at least one task, in-range dependency lists and enough call depth the
search returns an ordering. -/
theorem findOptimalOrder_total (tasks : List Task) (numWorkers : Int) (fuel : Nat)
    (hN : 1 ≤ tasks.length) (hfuel : tasks.length ≤ fuel)
    (hdeps : ∀ t ∈ tasks, ∀ d ∈ t.depends, 0 ≤ d ∧ d < tasks.length) :
    ∃ r, findOptimalOrder fuel tasks numWorkers = Except.ok r := by
  obtain ⟨k, hk⟩ : ∃ k, tasks.length = k + 1 := ⟨tasks.length - 1, by omega⟩
  obtain ⟨best, hbest⟩ := searchLoop_insertionPerms_total tasks numWorkers k hk hdeps
    (List.replicate tasks.length 0, maxInt32)
  refine ⟨best.1, ?_⟩
  rw [findOptimalOrder_unfold tasks numWorkers fuel k hk (by omega), hbest]

theorem le_foldl_max (l : List Int) :
    ∀ init : Int, init ≤ l.foldl max init ∧ ∀ x ∈ l, x ≤ l.foldl max init := by
  induction l with
  | nil => intro init; simp
  | cons a l ih =>
    intro init
    obtain ⟨h1, h2⟩ := ih (max init a)
    rw [List.foldl_cons]
    refine ⟨le_trans (le_max_left _ _) h1, ?_⟩
    intro x hx
    rcases List.mem_cons.mp hx with rfl | hx
    · exact le_trans (le_max_right _ _) h1
    · exact h2 x hx

theorem indexOf_lt_of_mem_take (l : List Int) (p : Nat) (y : Int) (h : y ∈ l.take p) :
    l.indexOf y < p := by
  have hsplit : l = l.take p ++ l.drop p := (List.take_append_drop p l).symm
  have h1 : l.indexOf y = (l.take p).indexOf y := by
    conv_lhs => rw [hsplit]
    exact List.indexOf_append_of_mem h
  have h2 := List.indexOf_lt_length.mpr h
  have h3 : (l.take p).length ≤ p := by simp
  omega

/-- In an accepted ordering every dependency edge points to an earlier position. -/
theorem indexOf_lt_of_dependsOn (tasks : List Task) (q : List Int)
    (hq : List.Perm q (taskIndices tasks.length))
    (hv : isValidOrder q tasks = Except.ok true) (x y : Int) (hxy : dependsOn tasks x y) :
    q.indexOf y < q.indexOf x := by
  have hdeps := deps_in_range_of_valid tasks q hq hv
  have hrange := range_of_perm_taskIndices _ q hq
  have hspec := (isValidOrder_spec tasks q hdeps hrange).2.mp hv
  obtain ⟨task, htask, hy⟩ := hxy
  obtain ⟨hx0, hxt⟩ := (index_eq_ok_iff tasks x task).mp htask
  have hxlt : x.toNat < tasks.length := by
    by_contra hge
    rw [List.getElem?_eq_none (by omega)] at hxt
    simp at hxt
  have hxq : x ∈ q := by
    rw [hq.mem_iff, mem_taskIndices]; omega
  have hp : q.indexOf x < q.length := List.indexOf_lt_length.mpr hxq
  have hget : q[q.indexOf x]? = some x := by
    rw [List.getElem?_eq_getElem hp]
    simp
  exact indexOf_lt_of_mem_take q _ y (hspec _ x hget task hxt y hy)

/-- A task list with a dependency cycle has no accepted permutation. -/
theorem not_valid_of_cycle (tasks : List Task) (q : List Int)
    (hq : List.Perm q (taskIndices tasks.length)) (hcyc : ¬ acyclic tasks) :
    isValidOrder q tasks ≠ Except.ok true := by
  intro hv
  apply hcyc
  intro a ha
  have key : ∀ x y, Relation.TransGen (dependsOn tasks) x y → q.indexOf y < q.indexOf x := by
    intro x y hxy
    induction hxy with
    | single h1 => exact indexOf_lt_of_dependsOn tasks q hq hv _ _ h1
    | tail _ h2 ih =>
      have := indexOf_lt_of_dependsOn tasks q hq hv _ _ h2
      omega
  have := key a a ha
  omega

/-- With in-range dependency lists the validator returns on every permutation. -/
theorem isValidOrder_total_of_perm (tasks : List Task) (q : List Int)
    (hdeps : ∀ t ∈ tasks, ∀ d ∈ t.depends, 0 ≤ d ∧ d < tasks.length)
    (hq : List.Perm q (taskIndices tasks.length)) :
    ∃ b, isValidOrder q tasks = Except.ok b :=
  (isValidOrder_spec tasks q hdeps (range_of_perm_taskIndices _ q hq)).1

/-- If the search returns while no permutation is accepted, it returns the
placeholder. -/
theorem placeholder_of_no_valid (tasks : List Task) (numWorkers : Int) (fuel : Nat)
    (r : List Int) (hr : findOptimalOrder fuel tasks numWorkers = Except.ok r)
    (hnone : ∀ q, List.Perm q (taskIndices tasks.length) →
      isValidOrder q tasks ≠ Except.ok true) :
    r = List.replicate tasks.length 0 := by
  obtain ⟨k, hk, _, _, hcases⟩ := findOptimalOrder_cases tasks numWorkers fuel r hr
  rcases hcases with ⟨he, _⟩ | ⟨i, tr, hi, hv, _⟩
  · exact he
  · exfalso
    refine hnone r ?_ hv
    rw [hk]
    exact perm_of_mem_insertionPerms k _ (List.getElem?_mem hi)

theorem replicate_zero_not_perm (n : Nat) (hn : 2 ≤ n) :
    ¬ List.Perm (List.replicate n (0 : Int)) (taskIndices n) := by
  intro h
  obtain ⟨k, rfl⟩ : ∃ k, n = k + 1 := ⟨n - 1, by omega⟩
  have := replicate_zero_perm k h
  omega

theorem not_acyclic_selfTasks : ¬ acyclic selfTasks := by
  intro h
  exact h 0 (Relation.TransGen.single ⟨⟨1, [0]⟩, by decide, by decide⟩)

theorem not_acyclic_cycleTasks : ¬ acyclic cycleTasks := by
  intro h
  have h01 : dependsOn cycleTasks 0 1 := ⟨⟨1, [1]⟩, by decide, by decide⟩
  have h10 : dependsOn cycleTasks 1 0 := ⟨⟨1, [0]⟩, by decide, by decide⟩
  exact h 0 (Relation.TransGen.tail (Relation.TransGen.single h01) h10)

theorem not_acyclic_cycleDanglingTasks : ¬ acyclic cycleDanglingTasks := by
  intro h
  have h01 : dependsOn cycleDanglingTasks 0 1 := ⟨⟨1, [1]⟩, by decide, by decide⟩
  have h10 : dependsOn cycleDanglingTasks 1 0 := ⟨⟨1, [0]⟩, by decide, by decide⟩
  exact h 0 (Relation.TransGen.tail (Relation.TransGen.single h01) h10)

/-- A task list with a dependency cycle is not empty. -/
theorem length_pos_of_cycle (tasks : List Task) (hcyc : ¬ acyclic tasks) : 1 ≤ tasks.length := by
  by_contra hN
  apply hcyc
  intro a ha
  obtain ⟨b, ⟨task, htask, _⟩, _⟩ := Relation.TransGen.head'_iff.mp ha
  obtain ⟨_, hget⟩ := (index_eq_ok_iff tasks a task).mp htask
  rw [List.getElem?_eq_none (by omega)] at hget
  simp at hget

/-- With in-range dependency lists, at least one task and enough call depth, a
search in which no permutation is accepted returns the placeholder. -/
theorem findOptimalOrder_eq_placeholder (tasks : List Task) (numWorkers : Int) (fuel : Nat)
    (hN : 1 ≤ tasks.length) (hfuel : tasks.length ≤ fuel)
    (hdeps : ∀ t ∈ tasks, ∀ d ∈ t.depends, 0 ≤ d ∧ d < tasks.length)
    (hnone : ∀ q, List.Perm q (taskIndices tasks.length) →
      isValidOrder q tasks ≠ Except.ok true) :
    findOptimalOrder fuel tasks numWorkers = Except.ok (List.replicate tasks.length 0) := by
  obtain ⟨r, hr⟩ := findOptimalOrder_total tasks numWorkers fuel hN hfuel hdeps
  rw [hr, placeholder_of_no_valid tasks numWorkers fuel r hr hnone]

/-- A task that lists its own index is a cycle of length one. -/
theorem not_acyclic_of_self_dependency (tasks : List Task) (i : Nat) (task : Task)
    (hget : tasks[i]? = some task) (hself : (i : Int) ∈ task.depends) : ¬ acyclic tasks := by
  intro h
  refine h (i : Int) (Relation.TransGen.single ⟨task, ?_, hself⟩)
  exact (index_eq_ok_iff tasks _ task).mpr ⟨by omega, by simpa using hget⟩

/-- No permutation is accepted when some dependency index is outside the task
list or some task lists its own index. -/
theorem not_valid_of_malformed (tasks : List Task)
    (hbad : (∃ t ∈ tasks, ∃ d ∈ t.depends, d < 0 ∨ (tasks.length : Int) ≤ d) ∨
      (∃ (i : Nat) (task : Task), tasks[i]? = some task ∧ (i : Int) ∈ task.depends))
    (q : List Int) (hq : List.Perm q (taskIndices tasks.length)) :
    isValidOrder q tasks ≠ Except.ok true := by
  rcases hbad with ⟨t, ht, d, hd, hout⟩ | ⟨i, task, hget, hself⟩
  · intro hv
    have := deps_in_range_of_valid tasks q hq hv t ht d hd
    omega
  · exact not_valid_of_cycle tasks q hq (not_acyclic_of_self_dependency tasks i task hget hself)

theorem foldl_min_le (l : List Int) :
    ∀ init : Int, l.foldl Min.min init ≤ init ∧ ∀ x ∈ l, l.foldl Min.min init ≤ x := by
  induction l with
  | nil => intro init; simp
  | cons a l ih =>
    intro init
    obtain ⟨h1, h2⟩ := ih (Min.min init a)
    rw [List.foldl_cons]
    refine ⟨le_trans h1 (min_le_left _ _), ?_⟩
    intro x hx
    rcases List.mem_cons.mp hx with rfl | hx
    · exact le_trans h1 (min_le_right _ _)
    · exact h2 x hx

theorem le_foldl_min (l : List Int) :
    ∀ (init z : Int), z ≤ init → (∀ x ∈ l, z ≤ x) → z ≤ l.foldl Min.min init := by
  induction l with
  | nil => intro init z h _; simpa using h
  | cons a l ih =>
    intro init z h hall
    rw [List.foldl_cons]
    exact ih _ z (le_min h (hall a (List.mem_cons_self _ _)))
      (fun x hx => hall x (List.mem_cons_of_mem _ hx))

theorem durationOf_of_getElem? (tasks : List Task) (j : Nat) (task : Task)
    (h : tasks[j]? = some task) : durationOf tasks (j : Int) = task.duration :=
  durationOf_eq tasks _ task ((index_eq_ok_iff tasks _ task).mpr ⟨by omega, by simpa using h⟩)

theorem durationOf_nonneg (tasks : List Task) (hdur : ∀ t ∈ tasks, 0 ≤ t.duration) (idx : Int) :
    0 ≤ durationOf tasks idx := by
  unfold durationOf
  cases h : index tasks idx with
  | error e => simp
  | ok task =>
    exact hdur task (List.getElem?_mem ((index_eq_ok_iff tasks idx task).mp h).2)

theorem durationOf_lt (tasks : List Task) (hdur : ∀ t ∈ tasks, t.duration < 9223372036854775808)
    (idx : Int) : durationOf tasks idx < 9223372036854775808 := by
  unfold durationOf
  cases h : index tasks idx with
  | error e => simp
  | ok task =>
    exact hdur task (List.getElem?_mem ((index_eq_ok_iff tasks idx task).mp h).2)

/-- A task whose index is below the worker count always sees the slot of the
non-existent index `-1`, so its value in the recursive description is its own
duration. -/
theorem specFinish_of_lt_workers (tasks : List Task) (order : List Int) (numWorkers : Int)
    (hdur : ∀ t ∈ tasks, 0 ≤ t.duration ∧ t.duration < 9223372036854775808) :
    ∀ j : Nat, (j : Int) < numWorkers →
      specFinish tasks order numWorkers (j + 1) (j : Int) = durationOf tasks (j : Int) := by
  intro j
  induction j using Nat.strong_induction_on with
  | _ j ih =>
    intro hj
    have hnn := durationOf_nonneg tasks (fun t ht => (hdur t ht).1)
    have hlt := durationOf_lt tasks (fun t ht => (hdur t ht).2)
    rw [specFinish]
    have hfold : ((List.range numWorkers.toNat).map (fun i : Nat =>
          if (j : Int) - ((i : Int) + 1) < 0 ∨
              placedBefore order (j : Int) ((j : Int) - ((i : Int) + 1)) then 0
          else specFinish tasks order numWorkers j ((j : Int) - ((i : Int) + 1)))).foldl
        Min.min maxInt32 = 0 := by
      apply le_antisymm
      · refine (foldl_min_le _ maxInt32).2 0 ?_
        rw [List.mem_map]
        exact ⟨j, List.mem_range.mpr (by omega), by rw [if_pos (Or.inl (by omega))]⟩
      · refine le_foldl_min _ _ 0 (by decide) ?_
        intro x hx
        rw [List.mem_map] at hx
        obtain ⟨i, _, rfl⟩ := hx
        split
        · exact le_refl _
        · rename_i hc
          have hge : ¬ (j : Int) - ((i : Int) + 1) < 0 := fun h => hc (Or.inl h)
          obtain ⟨k, hk⟩ : ∃ k : Nat, (j : Int) - ((i : Int) + 1) = (k : Int) :=
            ⟨((j : Int) - ((i : Int) + 1)).toNat, by omega⟩
          rw [hk, specFinish_depth tasks order numWorkers j (k + 1) (k : Int) (by omega) (by omega),
            ih k (by omega) (by omega)]
          exact hnn _
    rw [hfold]
    have := hnn (j : Int)
    have := hlt (j : Int)
    rw [addInt_eq_add _ _ (by omega) (by omega)]
    omega

/-- On a permutation ordering the slice `times` ends up holding the value of
the recursive description for every task index. -/
theorem finishTimes_eq_specFinish (tasks : List Task) (order : List Int) (numWorkers : Int)
    (hperm : List.Perm order (taskIndices tasks.length)) :
    ∃ times, finishTimes order tasks numWorkers = Except.ok times ∧
      times.length = tasks.length ∧
      ∀ j : Nat, j < tasks.length →
        times[j]? = some (specFinish tasks order numWorkers (j + 1) (j : Int)) := by
  have hnd : order.Nodup := (hperm.nodup_iff).mpr (nodup_taskIndices _)
  have hrange := range_of_perm_taskIndices _ order hperm
  obtain ⟨times1, h1, h2, h3⟩ := timeLoop_spec tasks order numWorkers hnd hrange order []
    (List.replicate tasks.length 0) (by simp) (by simp) (by
      intro j hj
      simp [List.getElem?_replicate, hj])
  refine ⟨times1, h1, h2, ?_⟩
  intro j hj
  have hmem : (j : Int) ∈ order := by
    rw [hperm.mem_iff, mem_taskIndices]; omega
  rw [h3 j hj, if_pos hmem]

/-- The value `calculateTime` returns, read off the slice of finish times. -/
theorem calculateTime_of_finishTimes (tasks : List Task) (order : List Int) (numWorkers : Int)
    (times : List Int) (t : Int) (hN : 1 ≤ tasks.length)
    (ht : finishTimes order tasks numWorkers = Except.ok times)
    (hlast : times[tasks.length - 1]? = some t) :
    calculateTime order tasks numWorkers = Except.ok t := by
  unfold calculateTime
  rw [ht]
  simp only
  exact (index_eq_ok_iff times _ t).mpr ⟨by omega, by
    have e : ((tasks.length : Int) - 1).toNat = tasks.length - 1 := by omega
    rw [e]; exact hlast⟩

theorem durationSum_nonneg (tasks : List Task) (hdur : ∀ t ∈ tasks, 0 ≤ t.duration) :
    0 ≤ durationSum tasks := by
  unfold durationSum
  apply List.sum_nonneg
  intro x hx
  rw [List.mem_map] at hx
  obtain ⟨t, ht, rfl⟩ := hx
  exact hdur t ht

theorem durationSum_take_succ (tasks : List Task) (j : Nat) (hj : j < tasks.length) :
    durationSum (tasks.take (j + 1)) = durationSum (tasks.take j) + durationOf tasks (j : Int) := by
  have hget : tasks[j]? = some (tasks.get ⟨j, hj⟩) := by
    rw [List.getElem?_eq_getElem hj]; rfl
  rw [durationOf_of_getElem? tasks j _ hget]
  have e : tasks.take (j + 1) = tasks.take j ++ [tasks.get ⟨j, hj⟩] := by
    rw [List.take_succ, hget]
    rfl
  unfold durationSum
  rw [e, List.map_append, List.sum_append, List.map_singleton, List.sum_singleton]

/-- Bounds on the recursive description when no addition can overflow: the
value of task `j` lies between its own duration and the sum of the durations of
the tasks `0..j`. -/
theorem specFinish_bounds (tasks : List Task) (order : List Int) (numWorkers : Int)
    (hW : 1 ≤ numWorkers)
    (hdur : ∀ t ∈ tasks, 0 ≤ t.duration ∧ t.duration ≤ maxDuration) :
    ∀ j : Nat, j < tasks.length →
      durationOf tasks (j : Int) ≤ specFinish tasks order numWorkers (j + 1) (j : Int) ∧
      specFinish tasks order numWorkers (j + 1) (j : Int) ≤ durationSum (tasks.take (j + 1)) := by
  intro j
  induction j using Nat.strong_induction_on with
  | _ j ih =>
    intro hj
    have hnn := durationOf_nonneg tasks (fun t ht => (hdur t ht).1)
    have hd0 := hnn (j : Int)
    have hd1 : durationOf tasks (j : Int) ≤ maxDuration := by
      have hget : tasks[j]? = some (tasks.get ⟨j, hj⟩) := by
        rw [List.getElem?_eq_getElem hj]; rfl
      rw [durationOf_of_getElem? tasks j _ hget]
      exact (hdur _ (List.get_mem _ _ _)).2
    have hprev : ∀ i : Nat, ¬ (j : Int) - ((i : Int) + 1) < 0 →
        0 ≤ specFinish tasks order numWorkers j ((j : Int) - ((i : Int) + 1)) ∧
        specFinish tasks order numWorkers j ((j : Int) - ((i : Int) + 1))
          ≤ durationSum (tasks.take (j - i)) := by
      intro i hge
      obtain ⟨k, hk⟩ : ∃ k : Nat, (j : Int) - ((i : Int) + 1) = (k : Int) :=
        ⟨((j : Int) - ((i : Int) + 1)).toNat, by omega⟩
      have hkj : k + 1 = j - i := by omega
      rw [hk, specFinish_depth tasks order numWorkers j (k + 1) (k : Int) (by omega) (by omega),
        ← hkj]
      obtain ⟨h1, h2⟩ := ih k (by omega) (by omega)
      exact ⟨le_trans (hnn _) h1, h2⟩
    rw [specFinish]
    generalize hm : ((List.range numWorkers.toNat).map (fun i : Nat =>
          if (j : Int) - ((i : Int) + 1) < 0 ∨
              placedBefore order (j : Int) ((j : Int) - ((i : Int) + 1)) then 0
          else specFinish tasks order numWorkers j ((j : Int) - ((i : Int) + 1)))).foldl
        Min.min maxInt32 = m
    have hm0 : 0 ≤ m := by
      rw [← hm]
      refine le_foldl_min _ _ 0 (by decide) ?_
      intro x hx
      rw [List.mem_map] at hx
      obtain ⟨i, _, rfl⟩ := hx
      split
      · exact le_refl _
      · rename_i hc
        exact (hprev i (fun h => hc (Or.inl h))).1
    have hmcap : m ≤ maxInt32 := by
      rw [← hm]
      exact (foldl_min_le _ maxInt32).1
    have hmsum : m ≤ durationSum (tasks.take j) := by
      have hsum0 : 0 ≤ durationSum (tasks.take j) :=
        durationSum_nonneg _ (fun t ht => (hdur t (List.mem_of_mem_take ht)).1)
      have hle := (foldl_min_le ((List.range numWorkers.toNat).map (fun i : Nat =>
          if (j : Int) - ((i : Int) + 1) < 0 ∨
              placedBefore order (j : Int) ((j : Int) - ((i : Int) + 1)) then 0
          else specFinish tasks order numWorkers j ((j : Int) - ((i : Int) + 1)))) maxInt32).2
        _ (List.mem_map.mpr ⟨0, List.mem_range.mpr (by omega), rfl⟩)
      rw [hm] at hle
      refine le_trans hle ?_
      split
      · exact hsum0
      · rename_i hc
        have := (hprev 0 (fun h => hc (Or.inl h))).2
        simpa using this
    have hcap : maxInt32 = 2147483647 := rfl
    have hmax : maxDuration = 9223372034707292160 := rfl
    rw [addInt_eq_add _ _ (by omega) (by omega), durationSum_take_succ tasks j hj]
    constructor <;> omega

set_option maxRecDepth 100000 in
/-- The search loop on the task list of `main`, evaluated. -/
theorem searchLoop_mainTasks :
    searchLoop mainTasks 3 (insertionPerms 5) (List.replicate mainTasks.length 0, maxInt32)
      = Except.ok ([3, 5, 0, 2, 1, 4], 6) := by
  decide

theorem slot_le_slot (times times1 : List Int) (taskIndex : Int) (i : Nat)
    (hle : ∀ k : Nat, (times1[k]?).getD 0 ≤ (times[k]?).getD 0) :
    slot times1 taskIndex i ≤ slot times taskIndex i := by
  unfold slot
  split
  · exact le_refl _
  · exact hle _

theorem le_slot (times : List Int) (taskIndex : Int) (i : Nat) (lo : Int) (hlo : lo ≤ 0)
    (hall : ∀ x ∈ times, lo ≤ x) : lo ≤ slot times taskIndex i := by
  unfold slot
  split
  · exact hlo
  · cases h : times[(taskIndex - i - 1).toNat]? with
    | none => simpa using hlo
    | some x => simpa using hall x (List.getElem?_mem h)

/-- The minimum taken by the worker loop does not grow when more workers are
considered and the recorded times are pointwise smaller. -/
theorem minTime_mono (times times1 : List Int) (taskIndex : Int) (n n1 : Nat) (hn : n ≤ n1)
    (hle : ∀ k : Nat, (times1[k]?).getD 0 ≤ (times[k]?).getD 0) :
    ((List.range n1).map (slot times1 taskIndex)).foldl Min.min maxInt32
      ≤ ((List.range n).map (slot times taskIndex)).foldl Min.min maxInt32 := by
  refine le_foldl_min _ _ _ (foldl_min_le _ maxInt32).1 ?_
  intro x hx
  rw [List.mem_map] at hx
  obtain ⟨i, hi, rfl⟩ := hx
  rw [List.mem_range] at hi
  refine le_trans ((foldl_min_le _ maxInt32).2 (slot times1 taskIndex i) ?_)
    (slot_le_slot times times1 taskIndex i hle)
  exact List.mem_map.mpr ⟨i, List.mem_range.mpr (by omega), rfl⟩

theorem minTime_bounds (times : List Int) (taskIndex : Int) (n : Nat) (lo : Int) (hlo : lo ≤ 0)
    (hall : ∀ x ∈ times, lo ≤ x) :
    lo ≤ ((List.range n).map (slot times taskIndex)).foldl Min.min maxInt32 ∧
    ((List.range n).map (slot times taskIndex)).foldl Min.min maxInt32 ≤ maxInt32 := by
  refine ⟨le_foldl_min _ _ lo (le_trans hlo (by decide)) ?_, (foldl_min_le _ maxInt32).1⟩
  intro x hx
  rw [List.mem_map] at hx
  obtain ⟨i, _, rfl⟩ := hx
  exact le_slot times taskIndex i lo hlo hall

theorem getD_set_le (times times1 : List Int) (n : Nat) (v v1 : Int)
    (hlen : times1.length = times.length) (hv : v1 ≤ v)
    (hle : ∀ k : Nat, (times1[k]?).getD 0 ≤ (times[k]?).getD 0) (k : Nat) :
    ((times1.set n v1)[k]?).getD 0 ≤ ((times.set n v)[k]?).getD 0 := by
  rw [List.getElem?_set, List.getElem?_set]
  by_cases e : n = k
  · rw [if_pos e, if_pos e, hlen]
    split
    · simpa using hv
    · simp
  · rw [if_neg e, if_neg e]
    exact hle k

/-- Two runs of the loop of `calculateTime` on the same ordering, the second
with at least as many workers: as long as no addition leaves the 64-bit range,
the second run records pointwise smaller times. -/
theorem timeLoop_mono (tasks : List Task) (numWorkers numWorkers1 B : Int)
    (hW : numWorkers ≤ numWorkers1) (hB : 0 ≤ B)
    (hdur : ∀ t ∈ tasks, -B ≤ t.duration ∧ t.duration ≤ maxDuration) :
    ∀ (rest times times1 : List Int) (lo : Int), lo ≤ 0 →
      -9223372036854775808 ≤ lo - (rest.length : Int) * B →
      times.length = tasks.length → times1.length = tasks.length →
      (∀ x ∈ times, lo ≤ x) → (∀ x ∈ times1, lo ≤ x) →
      (∀ k : Nat, (times1[k]?).getD 0 ≤ (times[k]?).getD 0) →
      (∀ x ∈ rest, 0 ≤ x ∧ x < tasks.length) →
      ∃ r r1, timeLoop tasks numWorkers rest times = Except.ok r ∧
        timeLoop tasks numWorkers1 rest times1 = Except.ok r1 ∧
        r.length = tasks.length ∧ r1.length = tasks.length ∧
        ∀ k : Nat, (r1[k]?).getD 0 ≤ (r[k]?).getD 0 := by
  intro rest
  induction rest with
  | nil =>
    intro times times1 lo _ _ hlen hlen1 _ _ hle _
    exact ⟨times, times1, rfl, rfl, hlen, hlen1, hle⟩
  | cons t rest ih =>
    intro times times1 lo hlo hroom hlen hlen1 hall hall1 hle hrange
    obtain ⟨ht0, ht1⟩ := hrange t (List.mem_cons_self _ _)
    have htn : t.toNat < tasks.length := by omega
    have hmul : (((t :: rest).length : Nat) : Int) * B = (rest.length : Int) * B + B := by
      rw [List.length_cons]; push_cast; ring
    rw [hmul] at hroom
    have hX : 0 ≤ (rest.length : Int) * B := mul_nonneg (by omega) hB
    obtain ⟨hd0, hd1⟩ := hdur _ (List.get_mem tasks t.toNat htn)
    obtain ⟨hm0, hm1⟩ := minTime_bounds times t numWorkers.toNat lo hlo hall
    obtain ⟨hn0, hn1⟩ := minTime_bounds times1 t numWorkers1.toNat lo hlo hall1
    have hmono := minTime_mono times times1 t numWorkers.toNat numWorkers1.toNat
      (by omega) hle
    have hcap : maxInt32 = 2147483647 := rfl
    have hmax : maxDuration = 9223372034707292160 := rfl
    rw [timeLoop, timeLoop, index_eq_ok tasks t ht0 htn]
    simp only
    rw [minLoop_eq times t (by omega), minLoop_eq times1 t (by omega)]
    simp only
    rw [assign_eq_ok times t _ ht0 (by omega), assign_eq_ok times1 t _ ht0 (by omega)]
    simp only
    rw [addInt_eq_add _ _ (by linarith) (by linarith),
      addInt_eq_add _ _ (by linarith) (by linarith)]
    refine ih _ _ (lo - B) (by linarith) (by linarith) (by simpa using hlen)
      (by simpa using hlen1) ?_ ?_ ?_ (fun x hx => hrange x (List.mem_cons_of_mem _ hx))
    · intro x hx
      rcases List.mem_or_eq_of_mem_set hx with h | h
      · have := hall x h
        linarith
      · rw [h]; linarith
    · intro x hx
      rcases List.mem_or_eq_of_mem_set hx with h | h
      · have := hall1 x h
        linarith
      · rw [h]; linarith
    · exact getD_set_le times times1 t.toNat _ _ (by rw [hlen, hlen1]) (by linarith) hle

/-- On a permutation ordering `calculateTime` returns the value of the
recursion with Go's addition at the index `N-1`. -/
theorem calculateTime_eq_specFinish (tasks : List Task) (order : List Int) (numWorkers : Int)
    (hN : 1 ≤ tasks.length) (hperm : List.Perm order (taskIndices tasks.length)) :
    calculateTime order tasks numWorkers
      = Except.ok (specFinish tasks order numWorkers tasks.length ((tasks.length : Int) - 1)) := by
  have hnd : order.Nodup := (hperm.nodup_iff).mpr (nodup_taskIndices _)
  have hrange := range_of_perm_taskIndices _ order hperm
  obtain ⟨times1, h1, h2, h3⟩ := timeLoop_spec tasks order numWorkers hnd hrange order []
    (List.replicate tasks.length 0) (by simp) (by simp) (by
      intro j hj
      simp [List.getElem?_replicate, hj])
  unfold calculateTime finishTimes
  rw [h1]
  simp only
  have hlast := h3 (tasks.length - 1) (by omega)
  have hcast : (((tasks.length - 1 : Nat)) : Int) = (tasks.length : Int) - 1 := by omega
  have hmem : (tasks.length : Int) - 1 ∈ order := by
    rw [hperm.mem_iff, mem_taskIndices]; omega
  rw [hcast, if_pos hmem, Nat.sub_add_cancel hN] at hlast
  rw [(index_eq_ok_iff times1 _ _).mpr ⟨by omega, by
    have : ((tasks.length : Int) - 1).toNat = tasks.length - 1 := by omega
    rw [this]; exact hlast⟩]

theorem durationOf_le_maxDuration (tasks : List Task)
    (hdur : ∀ t ∈ tasks, t.duration ≤ maxDuration) (idx : Int) :
    durationOf tasks idx ≤ maxDuration := by
  unfold durationOf
  cases h : index tasks idx with
  | error e => simp only; decide
  | ok task =>
    exact hdur task (List.getElem?_mem ((index_eq_ok_iff tasks idx task).mp h).2)

/-- For durations between `0` and `math.MaxInt64 - math.MaxInt32` no addition of
the recursion wraps around: the recursion with Go's addition and the one with
exact addition agree, and their values are non-negative. -/
theorem specFinish_eq_exactFinish (tasks : List Task) (order : List Int) (numWorkers : Int)
    (hdur : ∀ t ∈ tasks, 0 ≤ t.duration ∧ t.duration ≤ maxDuration) :
    ∀ (depth : Nat) (idx : Int),
      specFinish tasks order numWorkers depth idx = exactFinish tasks order numWorkers depth idx ∧
      0 ≤ exactFinish tasks order numWorkers depth idx := by
  intro depth
  induction depth with
  | zero => intro idx; exact ⟨rfl, le_refl _⟩
  | succ depth ih =>
    intro idx
    have hd0 := durationOf_nonneg tasks (fun t ht => (hdur t ht).1) idx
    have hd1 := durationOf_le_maxDuration tasks (fun t ht => (hdur t ht).2) idx
    have hlist : (List.range numWorkers.toNat).map (fun i : Nat =>
          if idx - ((i : Int) + 1) < 0 ∨ placedBefore order idx (idx - ((i : Int) + 1)) then 0
          else specFinish tasks order numWorkers depth (idx - ((i : Int) + 1)))
        = (List.range numWorkers.toNat).map (fun i : Nat =>
          if idx - ((i : Int) + 1) < 0 ∨ placedBefore order idx (idx - ((i : Int) + 1)) then 0
          else exactFinish tasks order numWorkers depth (idx - ((i : Int) + 1))) := by
      apply List.map_congr_left
      intro i _
      split
      · rfl
      · exact (ih _).1
    rw [specFinish, exactFinish, hlist]
    generalize hm : ((List.range numWorkers.toNat).map (fun i : Nat =>
          if idx - ((i : Int) + 1) < 0 ∨ placedBefore order idx (idx - ((i : Int) + 1)) then 0
          else exactFinish tasks order numWorkers depth (idx - ((i : Int) + 1)))).foldl
        Min.min maxInt32 = m
    have hm0 : 0 ≤ m := by
      rw [← hm]
      refine le_foldl_min _ _ 0 (by decide) ?_
      intro x hx
      rw [List.mem_map] at hx
      obtain ⟨i, _, rfl⟩ := hx
      split
      · exact le_refl _
      · exact (ih _).2
    have hmcap : m ≤ maxInt32 := by
      rw [← hm]
      exact (foldl_min_le _ maxInt32).1
    have hcap : maxInt32 = 2147483647 := rfl
    have hmax : maxDuration = 9223372034707292160 := rfl
    rw [addInt_eq_add _ _ (by omega) (by omega)]
    exact ⟨rfl, by omega⟩

theorem exactFinish_depth (tasks : List Task) (order : List Int) (numWorkers : Int) :
    ∀ (d1 d2 : Nat) (idx : Int), idx.toNat < d1 → idx.toNat < d2 →
      exactFinish tasks order numWorkers d1 idx = exactFinish tasks order numWorkers d2 idx := by
  intro d1
  induction d1 with
  | zero => intro d2 idx h; omega
  | succ d1 ih =>
    intro d2 idx h1 h2
    obtain ⟨e2, rfl⟩ : ∃ e, d2 = e + 1 := ⟨d2 - 1, by omega⟩
    rw [exactFinish, exactFinish]
    congr 2
    apply List.map_congr_left
    intro i _
    by_cases hc : idx - ((i : Int) + 1) < 0 ∨ placedBefore order idx (idx - ((i : Int) + 1))
    · rw [if_pos hc, if_pos hc]
    · rw [if_neg hc, if_neg hc]
      have : ¬ idx - ((i : Int) + 1) < 0 := fun h => hc (Or.inl h)
      exact ih e2 _ (by omega) (by omega)

/-! ## The claims -/

/-- C1: for every `N ≥ 1` (and call depth at least `N`) `generatePermutations(N)`
returns, and every sequence it returns is a permutation of `{0,…,N-1}`: it has
length `N`, contains each index `0..N-1` exactly once, is a rearrangement of
`[0,…,N-1]`, and sorting it yields `[0,1,…,N-1]`. -/
theorem generatePermutations_each_is_permutation (N fuel : Nat) (hN : 1 ≤ N) (hfuel : N ≤ fuel) :
    ∃ perms, generatePermutations fuel (N : Int) = Except.ok perms ∧
      ∀ p ∈ perms, p.length = N ∧ (∀ i : Nat, i < N → p.count (i : Int) = 1) ∧
        List.Perm p (taskIndices N) ∧ p.insertionSort (· ≤ ·) = taskIndices N := by
  obtain ⟨k, rfl⟩ : ∃ k, N = k + 1 := ⟨N - 1, by omega⟩
  refine ⟨insertionPerms k, by simpa using generatePermutations_eq k fuel hfuel, ?_⟩
  intro p hp
  have hperm := perm_of_mem_insertionPerms k p hp
  exact ⟨length_of_mem_insertionPerms k p hp,
    fun i hi => count_eq_one_of_perm_taskIndices _ p hperm i hi, hperm,
    insertionSort_eq_of_perm_taskIndices _ p hperm⟩

theorem generatePermutations_each_is_permutation_witness :
    1 ≤ 3 ∧ 3 ≤ 3 ∧
    ∃ perms, generatePermutations 3 ((3 : Nat) : Int) = Except.ok perms ∧
      ∀ p ∈ perms, p.length = 3 ∧ (∀ i : Nat, i < 3 → p.count (i : Int) = 1) ∧
        List.Perm p (taskIndices 3) ∧ p.insertionSort (· ≤ ·) = taskIndices 3 :=
  ⟨by decide, by decide, generatePermutations_each_is_permutation 3 3 (by decide) (by decide)⟩

/-- C2: for every `N ≥ 1` (and call depth at least `N`) `generatePermutations(N)`
returns exactly `N!` sequences, no two of them equal, and every permutation of
`{0,…,N-1}` occurs in the result exactly once. -/
theorem generatePermutations_complete (N fuel : Nat) (hN : 1 ≤ N) (hfuel : N ≤ fuel) :
    ∃ perms, generatePermutations fuel (N : Int) = Except.ok perms ∧
      perms.length = N.factorial ∧ perms.Nodup ∧
      ∀ q : List Int, List.Perm q (taskIndices N) → perms.count q = 1 := by
  obtain ⟨k, rfl⟩ : ∃ k, N = k + 1 := ⟨N - 1, by omega⟩
  refine ⟨insertionPerms k, by simpa using generatePermutations_eq k fuel hfuel,
    length_insertionPerms k, nodup_insertionPerms k, ?_⟩
  intro q hq
  exact count_eq_one_of_nodup_of_mem (nodup_insertionPerms k) (mem_insertionPerms_of_perm k q hq)

theorem generatePermutations_complete_witness :
    1 ≤ 3 ∧ 3 ≤ 4 ∧
    ∃ perms, generatePermutations 4 ((3 : Nat) : Int) = Except.ok perms ∧
      perms.length = Nat.factorial 3 ∧ perms.Nodup ∧
      ∀ q : List Int, List.Perm q (taskIndices 3) → perms.count q = 1 :=
  ⟨by decide, by decide, generatePermutations_complete 3 4 (by decide) (by decide)⟩

/-- C3: for a task list of length `N` whose dependency indices all lie in
`0..N-1` and an ordering whose entries all lie in `0..N-1`, `isValidOrder`
returns, and it returns `true` if and only if for every position `p` of the
ordering and every dependency `d` of the task at position `p`, `d` occurs in the
ordering at some position strictly less than `p`.  In particular, for two tasks
where task 1 depends on task 0 and task 0 has no dependencies, `[0,1]` is
accepted and `[1,0]` is rejected. -/
theorem isValidOrder_iff (tasks : List Task) (order : List Int)
    (hdeps : ∀ t ∈ tasks, ∀ d ∈ t.depends, 0 ≤ d ∧ d < tasks.length)
    (horder : ∀ x ∈ order, 0 ≤ x ∧ x < tasks.length) :
    (∃ b, isValidOrder order tasks = Except.ok b) ∧
    (isValidOrder order tasks = Except.ok true ↔
      ∀ (p : Nat) (t : Int), order[p]? = some t →
        ∀ task, tasks[t.toNat]? = some task →
          ∀ d ∈ task.depends, ∃ q, q < p ∧ order[q]? = some d) ∧
    (∀ d0 d1 : Int,
      isValidOrder [0, 1] [⟨d0, []⟩, ⟨d1, [0]⟩] = Except.ok true ∧
      isValidOrder [1, 0] [⟨d0, []⟩, ⟨d1, [0]⟩] = Except.ok false) := by
  obtain ⟨hex, hiff⟩ := validLoop_spec tasks hdeps order [] (List.replicate tasks.length false)
    (by simp) (by
      intro d hd0 hd1
      simp only [List.not_mem_nil, iff_false]
      intro h
      rw [List.getElem?_replicate] at h
      split at h <;> simp at h) horder
  refine ⟨hex, ?_, fun d0 d1 => ⟨rfl, rfl⟩⟩
  unfold isValidOrder
  rw [hiff]
  simp only [List.not_mem_nil, false_or, mem_take_iff_getElem?]

theorem isValidOrder_iff_witness :
    isValidOrder [0, 1] [⟨2, []⟩, ⟨3, [0]⟩] = Except.ok true ∧
    isValidOrder [1, 0] [⟨2, []⟩, ⟨3, [0]⟩] ≠ Except.ok true := by
  have hdeps : ∀ t ∈ ([⟨2, []⟩, ⟨3, [0]⟩] : List Task), ∀ d ∈ t.depends,
      0 ≤ d ∧ d < (([⟨2, []⟩, ⟨3, [0]⟩] : List Task).length : Int) := by
    intro t ht d hd
    simp only [List.mem_cons, List.mem_singleton, List.not_mem_nil, or_false] at ht
    rcases ht with rfl | rfl
    · simp at hd
    · simp only [List.mem_singleton] at hd
      subst hd
      decide
  constructor
  · refine (isValidOrder_iff _ [0, 1] hdeps (by decide)).2.1.mpr ?_
    intro p t hp task htask d hd
    match p, hp with
    | 0, hp =>
      simp only [List.getElem?_cons_zero, Option.some.injEq] at hp
      subst hp
      simp at htask
      subst htask
      simp at hd
    | 1, hp =>
      simp at hp
      subst hp
      simp at htask
      subst htask
      simp only [List.mem_singleton] at hd
      subst hd
      exact ⟨0, by decide, rfl⟩
    | (n + 2), hp => simp at hp
  · intro h
    have := (isValidOrder_iff _ [1, 0] hdeps (by decide)).2.1.mp h 0 1 rfl ⟨3, [0]⟩ rfl 0
      (by simp)
    obtain ⟨q, hq, _⟩ := this
    omega

/-- C4: for every task list with dependency indices in `0..N-1` and every
worker count, if some dependency-valid permutation has an estimated time below
the initial sentinel `2^31-1`, then `findOptimalOrder` (given call depth at
least `N`) returns a dependency-valid permutation `r` whose `calculateTime` is
at most the `calculateTime` of every dependency-valid permutation of
`{0,…,N-1}`. -/
theorem findOptimalOrder_minimal (tasks : List Task) (numWorkers : Int) (fuel : Nat)
    (hfuel : tasks.length ≤ fuel)
    (hdeps : ∀ t ∈ tasks, ∀ d ∈ t.depends, 0 ≤ d ∧ d < tasks.length)
    (hex : ∃ (q : List Int) (t : Int), List.Perm q (taskIndices tasks.length) ∧
      isValidOrder q tasks = Except.ok true ∧
      calculateTime q tasks numWorkers = Except.ok t ∧ t < maxInt32) :
    ∃ (r : List Int) (tr : Int), findOptimalOrder fuel tasks numWorkers = Except.ok r ∧
      List.Perm r (taskIndices tasks.length) ∧
      isValidOrder r tasks = Except.ok true ∧
      calculateTime r tasks numWorkers = Except.ok tr ∧
      ∀ q : List Int, List.Perm q (taskIndices tasks.length) →
        isValidOrder q tasks = Except.ok true →
        ∃ tq, calculateTime q tasks numWorkers = Except.ok tq ∧ tr ≤ tq := by
  obtain ⟨q0, t0, hq0, hv0, ht0, hlt0⟩ := hex
  have hpos := length_pos_of_calculateTime tasks numWorkers q0 t0 hq0 ht0
  obtain ⟨r, hr⟩ := findOptimalOrder_total tasks numWorkers fuel hpos hfuel hdeps
  obtain ⟨k, hk, _, _, hcases⟩ := findOptimalOrder_cases tasks numWorkers fuel r hr
  have hgen : ∀ q : List Int, List.Perm q (taskIndices tasks.length) → q ∈ insertionPerms k :=
    fun q hq => mem_insertionPerms_of_perm k q (by rw [← hk]; exact hq)
  rcases hcases with ⟨_, hall⟩ | ⟨i, tr, hi, hv, ht, _, hall, _⟩
  · have := hall q0 (hgen q0 hq0) hv0 t0 ht0
    omega
  · refine ⟨r, tr, hr, ?_, hv, ht, ?_⟩
    · rw [hk]
      exact perm_of_mem_insertionPerms k _ (List.getElem?_mem hi)
    · intro q hq hvq
      obtain ⟨tq, htq⟩ := calculateTime_total tasks numWorkers q hpos
        (range_of_perm_taskIndices _ q hq)
      exact ⟨tq, htq, hall q (hgen q hq) hvq tq htq⟩

theorem findOptimalOrder_minimal_witness :
    chainTasks.length ≤ 2 ∧
    (∀ t ∈ chainTasks, ∀ d ∈ t.depends, 0 ≤ d ∧ d < chainTasks.length) ∧
    (∃ (q : List Int) (t : Int), List.Perm q (taskIndices chainTasks.length) ∧
      isValidOrder q chainTasks = Except.ok true ∧
      calculateTime q chainTasks 1 = Except.ok t ∧ t < maxInt32) ∧
    ∃ (r : List Int) (tr : Int), findOptimalOrder 2 chainTasks 1 = Except.ok r ∧
      List.Perm r (taskIndices chainTasks.length) ∧
      isValidOrder r chainTasks = Except.ok true ∧
      calculateTime r chainTasks 1 = Except.ok tr ∧
      ∀ q : List Int, List.Perm q (taskIndices chainTasks.length) →
        isValidOrder q chainTasks = Except.ok true →
        ∃ tq, calculateTime q chainTasks 1 = Except.ok tq ∧ tr ≤ tq :=
  ⟨by decide, by decide, ⟨[0, 1], 5, by decide, by decide, by decide, by decide⟩,
    findOptimalOrder_minimal chainTasks 1 2 (by decide) (by decide)
      ⟨[0, 1], 5, by decide, by decide, by decide, by decide⟩⟩

/-- C6: tie-break.  When `findOptimalOrder` returns a dependency-valid
permutation `r`, then `r` stands at some position `i` of the list
`generatePermutations(N)`, its `calculateTime` is the minimum over all
dependency-valid permutations, and every dependency-valid permutation standing
before position `i` in that list has a strictly larger `calculateTime`. -/
theorem findOptimalOrder_first_minimum (tasks : List Task) (numWorkers : Int) (fuel : Nat)
    (r : List Int) (hr : findOptimalOrder fuel tasks numWorkers = Except.ok r)
    (hperm : List.Perm r (taskIndices tasks.length))
    (_hvalid : isValidOrder r tasks = Except.ok true) :
    ∃ (perms : List (List Int)) (i : Nat) (tr : Int),
      generatePermutations fuel (tasks.length : Int) = Except.ok perms ∧
      perms[i]? = some r ∧
      calculateTime r tasks numWorkers = Except.ok tr ∧
      (∀ q : List Int, List.Perm q (taskIndices tasks.length) →
        isValidOrder q tasks = Except.ok true →
        ∃ tq, calculateTime q tasks numWorkers = Except.ok tq ∧ tr ≤ tq) ∧
      (∀ (j : Nat) (q : List Int), j < i → perms[j]? = some q →
        isValidOrder q tasks = Except.ok true →
        ∃ tq, calculateTime q tasks numWorkers = Except.ok tq ∧ tr < tq) := by
  obtain ⟨k, hk, _, hgen, hcases⟩ := findOptimalOrder_cases tasks numWorkers fuel r hr
  have hpos : 1 ≤ tasks.length := by omega
  have htotal : ∀ q : List Int, List.Perm q (taskIndices tasks.length) →
      ∃ tq, calculateTime q tasks numWorkers = Except.ok tq := fun q hq =>
    calculateTime_total tasks numWorkers q hpos (range_of_perm_taskIndices _ q hq)
  rcases hcases with ⟨he, _⟩ | ⟨i, tr, hi, _, ht, _, hall, hbefore⟩
  · obtain rfl : k = 0 := by
      apply replicate_zero_perm
      rw [← hk, ← he]
      exact hperm
    have hr0 : r = [0] := by rw [he, hk]; rfl
    obtain ⟨tr, htr⟩ := htotal r hperm
    refine ⟨insertionPerms 0, 0, tr, hgen, by rw [hr0]; rfl, htr, ?_, ?_⟩
    · intro q hq _
      have hq0 : q = [0] := by
        have := mem_insertionPerms_of_perm 0 q (by rw [← hk]; exact hq)
        simpa [insertionPerms] using this
      exact ⟨tr, by rw [hq0, ← hr0]; exact htr, le_refl _⟩
    · intro j q hj
      omega
  · refine ⟨insertionPerms k, i, tr, hgen, hi, ht, ?_, ?_⟩
    · intro q hq hvq
      obtain ⟨tq, htq⟩ := htotal q hq
      exact ⟨tq, htq, hall q (mem_insertionPerms_of_perm k q (by rw [← hk]; exact hq)) hvq tq htq⟩
    · intro j q hj hjq hvq
      obtain ⟨tq, htq⟩ := htotal q (by
        rw [hk]; exact perm_of_mem_insertionPerms k q (List.getElem?_mem hjq))
      exact ⟨tq, htq, hbefore j q hj hjq hvq tq htq⟩

theorem findOptimalOrder_first_minimum_witness :
    findOptimalOrder 3 freeTasks 3 = Except.ok [2, 1, 0] ∧
    List.Perm [2, 1, 0] (taskIndices freeTasks.length) ∧
    isValidOrder [2, 1, 0] freeTasks = Except.ok true ∧
    ∃ (perms : List (List Int)) (i : Nat) (tr : Int),
      generatePermutations 3 (freeTasks.length : Int) = Except.ok perms ∧
      perms[i]? = some [2, 1, 0] ∧
      calculateTime [2, 1, 0] freeTasks 3 = Except.ok tr ∧
      (∀ q : List Int, List.Perm q (taskIndices freeTasks.length) →
        isValidOrder q freeTasks = Except.ok true →
        ∃ tq, calculateTime q freeTasks 3 = Except.ok tq ∧ tr ≤ tq) ∧
      (∀ (j : Nat) (q : List Int), j < i → perms[j]? = some q →
        isValidOrder q freeTasks = Except.ok true →
        ∃ tq, calculateTime q freeTasks 3 = Except.ok tq ∧ tr < tq) :=
  ⟨by decide, by decide, by decide,
    findOptimalOrder_first_minimum freeTasks 3 3 [2, 1, 0] (by decide) (by decide) (by decide)⟩

/-- C7: for every task list of length `N ≥ 1` whose dependency indices all lie
in `0..N-1` and whose dependency relation has no cycle (in particular no task
depends on itself), `generatePermutations(N)` (given call depth at least `N`)
returns a list containing at least one sequence that `isValidOrder` accepts. -/
theorem exists_generated_valid_order (tasks : List Task) (fuel : Nat)
    (hN : 1 ≤ tasks.length) (hfuel : tasks.length ≤ fuel)
    (hdeps : ∀ t ∈ tasks, ∀ d ∈ t.depends, 0 ≤ d ∧ d < tasks.length)
    (hacyc : acyclic tasks) :
    ∃ (perms : List (List Int)) (q : List Int),
      generatePermutations fuel (tasks.length : Int) = Except.ok perms ∧
      q ∈ perms ∧ isValidOrder q tasks = Except.ok true := by
  obtain ⟨k, hk⟩ : ∃ k, tasks.length = k + 1 := ⟨tasks.length - 1, by omega⟩
  obtain ⟨l, hnd, hlen, hrange, hpre⟩ :=
    exists_valid_initial_segment tasks hdeps hacyc tasks.length (le_refl _)
  have hperm : List.Perm l (taskIndices tasks.length) := by
    refine (List.subperm_of_subset hnd ?_).perm_of_length_le ?_
    · intro x hx
      exact (mem_taskIndices _ x).mpr (hrange x hx)
    · simp [taskIndices, hlen]
  refine ⟨insertionPerms k, l, ?_, ?_, ?_⟩
  · rw [hk]
    exact generatePermutations_eq k fuel (by omega)
  · exact mem_insertionPerms_of_perm k l (by rw [← hk]; exact hperm)
  · exact (isValidOrder_spec tasks l hdeps hrange).2.mpr hpre

theorem exists_generated_valid_order_witness :
    1 ≤ chainTasks.length ∧ chainTasks.length ≤ 2 ∧
    (∀ t ∈ chainTasks, ∀ d ∈ t.depends, 0 ≤ d ∧ d < chainTasks.length) ∧
    acyclic chainTasks ∧
    ∃ (perms : List (List Int)) (q : List Int),
      generatePermutations 2 (chainTasks.length : Int) = Except.ok perms ∧
      q ∈ perms ∧ isValidOrder q chainTasks = Except.ok true :=
  ⟨by decide, by decide, by decide, acyclic_chainTasks,
    exists_generated_valid_order chainTasks 2 (by decide) (by decide) (by decide)
      acyclic_chainTasks⟩

/-- C8 as stated fails: with the non-negative durations `1` and
`9223372036854775807`, the permutation `[0,1]` and one worker, the recursion
gives `F(1) = 9223372036854775807 + min(2^31-1, F(0)) = 9223372036854775808`,
while in `calculateTime` the sum wraps around and `-9223372036854775808` is
returned. -/
theorem calculateTime_overflow_breaks_recursion :
    List.Perm [0, 1] (taskIndices overflowTasks.length) ∧
    (∀ t ∈ overflowTasks, 0 ≤ t.duration ∧ t.duration < 9223372036854775808) ∧
    exactFinish overflowTasks [0, 1] 1 overflowTasks.length ((overflowTasks.length : Int) - 1)
      = 9223372036854775808 ∧
    calculateTime [0, 1] overflowTasks 1 = Except.ok (-9223372036854775808) ∧
    calculateTime [0, 1] overflowTasks 1
      ≠ Except.ok (exactFinish overflowTasks [0, 1] 1 overflowTasks.length
          ((overflowTasks.length : Int) - 1)) := by
  decide

/-- C8 (amended): for every ordering that is a permutation of `{0,…,N-1}`
(`N ≥ 1`), durations between `0` and `math.MaxInt64 - math.MaxInt32`, and every
worker count, `calculateTime` returns `F(N-1)`, where `F` is the recursion
`exactFinish` on the task index:
`F(idx) = duration(idx) + min(2^31-1, S(idx,1), …, S(idx,W))` with
`S(idx,k) = 0` when `idx-k < 0` or task `idx-k` is placed after task `idx`, and
`S(idx,k) = F(idx-k)` when it is placed before.  The value is the finish time of
the task with index `N-1`, whatever its place in the ordering. -/
theorem calculateTime_eq_exactFinish (tasks : List Task) (order : List Int) (numWorkers : Int)
    (hN : 1 ≤ tasks.length) (hperm : List.Perm order (taskIndices tasks.length))
    (hdur : ∀ t ∈ tasks, 0 ≤ t.duration ∧ t.duration ≤ maxDuration) :
    calculateTime order tasks numWorkers
      = Except.ok (exactFinish tasks order numWorkers tasks.length ((tasks.length : Int) - 1)) := by
  rw [calculateTime_eq_specFinish tasks order numWorkers hN hperm,
    (specFinish_eq_exactFinish tasks order numWorkers hdur _ _).1]

theorem calculateTime_eq_exactFinish_witness :
    1 ≤ mainTasks.length ∧
    List.Perm [0, 1, 2, 3, 5, 4] (taskIndices mainTasks.length) ∧
    (∀ t ∈ mainTasks, 0 ≤ t.duration ∧ t.duration ≤ maxDuration) ∧
    calculateTime [0, 1, 2, 3, 5, 4] mainTasks 3
      = Except.ok (exactFinish mainTasks [0, 1, 2, 3, 5, 4] 3 mainTasks.length
          ((mainTasks.length : Int) - 1)) ∧
    exactFinish mainTasks [0, 1, 2, 3, 5, 4] 3 6 5 = 6 ∧
    finishTimes [0, 1, 2, 3, 5, 4] mainTasks 3 = Except.ok [2, 3, 4, 3, 8, 6] :=
  ⟨by decide, by decide, by decide,
    calculateTime_eq_exactFinish mainTasks [0, 1, 2, 3, 5, 4] 3 (by decide) (by decide)
      (by decide),
    by decide, by decide⟩

/-- C9 as stated fails: on the task list of `main` with 3 workers the
dependency-valid ordering `[0,1,2,3,5,4]` gets the finish times
`[2,3,4,3,8,6]`, whose maximum is `8` (task 4 finishes last), while
`calculateTime` returns `6`, the entry of task 5. -/
theorem calculateTime_below_latest_finish :
    List.Perm [0, 1, 2, 3, 5, 4] (taskIndices mainTasks.length) ∧
    isValidOrder [0, 1, 2, 3, 5, 4] mainTasks = Except.ok true ∧
    finishTimes [0, 1, 2, 3, 5, 4] mainTasks 3 = Except.ok [2, 3, 4, 3, 8, 6] ∧
    latestFinish [2, 3, 4, 3, 8, 6] = 8 ∧
    calculateTime [0, 1, 2, 3, 5, 4] mainTasks 3 = Except.ok 6 ∧
    calculateTime [0, 1, 2, 3, 5, 4] mainTasks 3
      ≠ Except.ok (latestFinish [2, 3, 4, 3, 8, 6]) := by
  decide

/-- C9 (amended): for every ordering that is a permutation of `{0,…,N-1}`
(`N ≥ 1`) and every worker count, `calculateTime` returns the finish time it
recorded for the task with index `N-1`, that is the entry `times[N-1]` of the
slice of per-task finish times; this value is at most the maximum of the
per-task finish times. -/
theorem calculateTime_eq_last_index_entry (tasks : List Task) (order : List Int)
    (numWorkers : Int) (hN : 1 ≤ tasks.length)
    (hperm : List.Perm order (taskIndices tasks.length)) :
    ∃ (times : List Int) (t : Int),
      finishTimes order tasks numWorkers = Except.ok times ∧
      times.length = tasks.length ∧
      times[tasks.length - 1]? = some t ∧
      calculateTime order tasks numWorkers = Except.ok t ∧
      t ≤ latestFinish times := by
  obtain ⟨times, ht, hlen⟩ := timeLoop_total tasks numWorkers order
    (List.replicate tasks.length 0) (by simp) (range_of_perm_taskIndices _ order hperm)
  have hlt : ((tasks.length : Int) - 1).toNat < times.length := by omega
  have hidx := index_eq_ok times ((tasks.length : Int) - 1) (by omega) hlt
  have e : tasks.length - 1 = ((tasks.length : Int) - 1).toNat := by omega
  refine ⟨times, times.get ⟨((tasks.length : Int) - 1).toNat, hlt⟩, ht, hlen, ?_, ?_, ?_⟩
  · rw [e, List.getElem?_eq_getElem hlt]; rfl
  · unfold calculateTime
    have hft : finishTimes order tasks numWorkers = Except.ok times := ht
    rw [hft]
    exact hidx
  · exact (le_foldl_max times 0).2 _ (List.get_mem _ _ _)

theorem calculateTime_eq_last_index_entry_witness :
    1 ≤ mainTasks.length ∧
    List.Perm [3, 5, 0, 2, 1, 4] (taskIndices mainTasks.length) ∧
    ∃ (times : List Int) (t : Int),
      finishTimes [3, 5, 0, 2, 1, 4] mainTasks 3 = Except.ok times ∧
      times.length = mainTasks.length ∧
      times[mainTasks.length - 1]? = some t ∧
      calculateTime [3, 5, 0, 2, 1, 4] mainTasks 3 = Except.ok t ∧
      t ≤ latestFinish times :=
  ⟨by decide, by decide,
    calculateTime_eq_last_index_entry mainTasks [3, 5, 0, 2, 1, 4] 3 (by decide) (by decide)⟩

/-- C10: the finish times do not wait for the dependencies.  On the task list
of `main` with 3 workers the dependency-valid ordering `[0,1,2,3,4,5]` gets the
finish times `[2,3,4,3,8,9]`: task 1 depends on task 0 and has duration 3, yet
its finish time `3` is below `finish(0) + duration(1) = 2 + 3`. -/
theorem finishTimes_ignore_dependencies :
    List.Perm [0, 1, 2, 3, 4, 5] (taskIndices mainTasks.length) ∧
    isValidOrder [0, 1, 2, 3, 4, 5] mainTasks = Except.ok true ∧
    finishTimes [0, 1, 2, 3, 4, 5] mainTasks 3 = Except.ok [2, 3, 4, 3, 8, 9] ∧
    mainTasks[1]? = some ⟨3, [0]⟩ ∧
    ([2, 3, 4, 3, 8, 9] : List Int)[1]? = some 3 ∧
    ([2, 3, 4, 3, 8, 9] : List Int)[0]? = some 2 ∧
    ¬ ((2 : Int) + 3 ≤ 3) := by
  decide

/-- C11 as stated fails: the single task that depends on itself makes
`findOptimalOrder` return `[0]`, which is a permutation of `{0}`; and a cyclic
task list with a dependency index outside the list makes it panic instead of
returning. -/
theorem findOptimalOrder_cycle_returns_ordering :
    ¬ acyclic selfTasks ∧
    findOptimalOrder 1 selfTasks 1 = Except.ok [0] ∧
    List.Perm [0] (taskIndices selfTasks.length) ∧
    ¬ acyclic cycleDanglingTasks ∧
    findOptimalOrder 3 cycleDanglingTasks 1 = Except.error Fault.indexOutOfRange :=
  ⟨not_acyclic_selfTasks, by decide, by decide, not_acyclic_cycleDanglingTasks, by decide⟩

/-- C11 (amended): for every task list with dependency indices in `0..N-1` that
contains a dependency cycle, and every worker count, `findOptimalOrder` (given
call depth at least `N`) returns the all-zero placeholder of length `N`; for
`N ≥ 2` this value is not a permutation of `{0,…,N-1}`. -/
theorem findOptimalOrder_cycle_placeholder (tasks : List Task) (numWorkers : Int) (fuel : Nat)
    (hfuel : tasks.length ≤ fuel)
    (hdeps : ∀ t ∈ tasks, ∀ d ∈ t.depends, 0 ≤ d ∧ d < tasks.length)
    (hcyc : ¬ acyclic tasks) :
    findOptimalOrder fuel tasks numWorkers = Except.ok (List.replicate tasks.length 0) ∧
    (2 ≤ tasks.length →
      ¬ List.Perm (List.replicate tasks.length (0 : Int)) (taskIndices tasks.length)) :=
  ⟨findOptimalOrder_eq_placeholder tasks numWorkers fuel (length_pos_of_cycle tasks hcyc) hfuel
      hdeps (fun q hq => not_valid_of_cycle tasks q hq hcyc),
    replicate_zero_not_perm tasks.length⟩

theorem findOptimalOrder_cycle_placeholder_witness :
    cycleTasks.length ≤ 2 ∧
    (∀ t ∈ cycleTasks, ∀ d ∈ t.depends, 0 ≤ d ∧ d < cycleTasks.length) ∧
    ¬ acyclic cycleTasks ∧
    findOptimalOrder 2 cycleTasks 3 = Except.ok (List.replicate cycleTasks.length 0) ∧
    (2 ≤ cycleTasks.length →
      ¬ List.Perm (List.replicate cycleTasks.length (0 : Int)) (taskIndices cycleTasks.length)) :=
  ⟨by decide, by decide, not_acyclic_cycleTasks,
    findOptimalOrder_cycle_placeholder cycleTasks 3 2 (by decide) (by decide)
      not_acyclic_cycleTasks⟩

/-- C12 as stated fails: the single task that depends on itself is not
rejected, `findOptimalOrder` returns `[0]`; and two tasks of which one lists
the non-existent index `5` are not rejected either, `findOptimalOrder` returns
`[0,0]`. -/
theorem findOptimalOrder_malformed_returns :
    selfTasks[0]? = some ⟨1, [0]⟩ ∧ (0 : Int) ∈ (⟨1, [0]⟩ : Task).depends ∧
    findOptimalOrder 1 selfTasks 1 = Except.ok [0] ∧
    quietDanglingTasks[1]? = some ⟨1, [0, 5]⟩ ∧
    (5 : Int) ∈ (⟨1, [0, 5]⟩ : Task).depends ∧ (quietDanglingTasks.length : Int) ≤ 5 ∧
    findOptimalOrder 2 quietDanglingTasks 1 = Except.ok [0, 0] := by
  decide

/-- C12 (amended): for every task list in which some dependency index refers
to a non-existent task (index `≥ N` or `< 0`) or some task lists its own index,
no permutation is accepted by `isValidOrder`, and whenever `findOptimalOrder`
returns, it returns the all-zero placeholder of length `N`; when all dependency
indices are in `0..N-1` (so that the defect is a self-dependency) it does return
(given call depth at least `N`), without any failure. -/
theorem findOptimalOrder_malformed (tasks : List Task) (numWorkers : Int) (fuel : Nat)
    (hbad : (∃ t ∈ tasks, ∃ d ∈ t.depends, d < 0 ∨ (tasks.length : Int) ≤ d) ∨
      (∃ (i : Nat) (task : Task), tasks[i]? = some task ∧ (i : Int) ∈ task.depends)) :
    (∀ q, List.Perm q (taskIndices tasks.length) → isValidOrder q tasks ≠ Except.ok true) ∧
    (∀ r, findOptimalOrder fuel tasks numWorkers = Except.ok r →
      r = List.replicate tasks.length 0) ∧
    ((∀ t ∈ tasks, ∀ d ∈ t.depends, 0 ≤ d ∧ d < tasks.length) → tasks.length ≤ fuel →
      findOptimalOrder fuel tasks numWorkers = Except.ok (List.replicate tasks.length 0)) := by
  have hnone := not_valid_of_malformed tasks hbad
  refine ⟨hnone, fun r hr => placeholder_of_no_valid tasks numWorkers fuel r hr hnone, ?_⟩
  intro hdeps hfuel
  have hN : 1 ≤ tasks.length := by
    rcases hbad with ⟨t, ht, d, hd, hout⟩ | ⟨i, task, hget, _⟩
    · have := hdeps t ht d hd
      omega
    · by_contra hlt
      rw [List.getElem?_eq_none (by omega)] at hget
      simp at hget
  exact findOptimalOrder_eq_placeholder tasks numWorkers fuel hN hfuel hdeps hnone

theorem findOptimalOrder_malformed_witness :
    ((∃ t ∈ selfTasks, ∃ d ∈ t.depends, d < 0 ∨ (selfTasks.length : Int) ≤ d) ∨
      (∃ (i : Nat) (task : Task), selfTasks[i]? = some task ∧ (i : Int) ∈ task.depends)) ∧
    (∀ q, List.Perm q (taskIndices selfTasks.length) →
      isValidOrder q selfTasks ≠ Except.ok true) ∧
    (∀ r, findOptimalOrder 1 selfTasks 2 = Except.ok r →
      r = List.replicate selfTasks.length 0) ∧
    ((∀ t ∈ selfTasks, ∀ d ∈ t.depends, 0 ≤ d ∧ d < selfTasks.length) → selfTasks.length ≤ 1 →
      findOptimalOrder 1 selfTasks 2 = Except.ok (List.replicate selfTasks.length 0)) :=
  ⟨Or.inr ⟨0, ⟨1, [0]⟩, by decide, by decide⟩,
    findOptimalOrder_malformed selfTasks 2 1 (Or.inr ⟨0, ⟨1, [0]⟩, by decide, by decide⟩)⟩

/-- C13: on zero tasks nothing is returned.  For every call depth,
`generatePermutations(0)` does not reach its base case `n == 1` (it recurses on
`-1`, `-2`, …) and ends in stack exhaustion, and so does `findOptimalOrder` on
the empty task list. -/
theorem zero_tasks_diverge (fuel : Nat) (numWorkers : Int) :
    generatePermutations fuel 0 = Except.error Fault.stackExhausted ∧
    findOptimalOrder fuel [] numWorkers = Except.error Fault.stackExhausted := by
  have h := generatePermutations_diverges fuel 0 (le_refl _)
  refine ⟨h, ?_⟩
  unfold findOptimalOrder
  simp only [List.length_nil, Nat.cast_zero, h]

/-- C14: for a single task with no dependencies whose duration `d` is a
non-negative `int`, and every worker count `W ≥ 1`, `findOptimalOrder` (given
call depth at least 1) returns `[0]` and `calculateTime([0], [task], W)` is `d`. -/
theorem single_task (d numWorkers : Int) (fuel : Nat) (hd0 : 0 ≤ d)
    (hd1 : d < 9223372036854775808) (hW : 1 ≤ numWorkers) (hfuel : 1 ≤ fuel) :
    findOptimalOrder fuel [⟨d, []⟩] numWorkers = Except.ok [0] ∧
    calculateTime [0] [⟨d, []⟩] numWorkers = Except.ok d := by
  constructor
  · obtain ⟨r, hr⟩ := findOptimalOrder_total [⟨d, []⟩] numWorkers fuel (by simp) (by simpa using hfuel)
      (by simp)
    obtain ⟨k, hk, _, _, hcases⟩ := findOptimalOrder_cases [⟨d, []⟩] numWorkers fuel r hr
    have hk0 : k = 0 := by simpa using hk
    subst hk0
    rw [hr]
    rcases hcases with ⟨he, _⟩ | ⟨i, tr, hi, _⟩
    · rw [he]; rfl
    · have := List.getElem?_mem hi
      simp only [insertionPerms, List.mem_singleton] at this
      rw [this]
  · have hperm : List.Perm [0] (taskIndices ([⟨d, []⟩] : List Task).length) := List.Perm.refl _
    obtain ⟨times, ht, _, hspec⟩ :=
      finishTimes_eq_specFinish [⟨d, []⟩] [0] numWorkers hperm
    have h0 := hspec 0 (by simp)
    rw [specFinish_of_lt_workers [⟨d, []⟩] [0] numWorkers (by simp; omega) 0 (by omega),
      durationOf_of_getElem? [⟨d, []⟩] 0 ⟨d, []⟩ (by simp)] at h0
    exact calculateTime_of_finishTimes [⟨d, []⟩] [0] numWorkers times d (by simp) ht h0

theorem single_task_witness :
    (0 : Int) ≤ 7 ∧ (7 : Int) < 9223372036854775808 ∧ (1 : Int) ≤ 2 ∧ 1 ≤ 1 ∧
    findOptimalOrder 1 [⟨7, []⟩] 2 = Except.ok [0] ∧
    calculateTime [0] [⟨7, []⟩] 2 = Except.ok 7 :=
  ⟨by decide, by decide, by decide, by decide,
    single_task 7 2 1 (by decide) (by decide) (by decide) (by decide)⟩

/-- C15: for the reference input of `main` with 3 workers, `findOptimalOrder`
(given call depth at least 6) returns `[3,5,0,2,1,4]`; this ordering is a
dependency-valid permutation of `{0,…,5}`, its `calculateTime` is `6`, and every
dependency-valid permutation of `{0,…,5}` has a `calculateTime` of at least `6`. -/
theorem findOptimalOrder_mainTasks (fuel : Nat) (hfuel : 6 ≤ fuel) :
    findOptimalOrder fuel mainTasks 3 = Except.ok [3, 5, 0, 2, 1, 4] ∧
    List.Perm [3, 5, 0, 2, 1, 4] (taskIndices mainTasks.length) ∧
    isValidOrder [3, 5, 0, 2, 1, 4] mainTasks = Except.ok true ∧
    calculateTime [3, 5, 0, 2, 1, 4] mainTasks 3 = Except.ok 6 ∧
    ∀ q : List Int, List.Perm q (taskIndices mainTasks.length) →
      isValidOrder q mainTasks = Except.ok true →
      ∃ tq, calculateTime q mainTasks 3 = Except.ok tq ∧ 6 ≤ tq := by
  have hfind : findOptimalOrder fuel mainTasks 3 = Except.ok [3, 5, 0, 2, 1, 4] := by
    rw [findOptimalOrder_unfold mainTasks 3 fuel 5 rfl hfuel, searchLoop_mainTasks]
  have htime : calculateTime [3, 5, 0, 2, 1, 4] mainTasks 3 = Except.ok 6 := by decide
  refine ⟨hfind, by decide, by decide, htime, ?_⟩
  intro q hq hvq
  obtain ⟨tq, htq⟩ := calculateTime_total mainTasks 3 q (by decide)
    (range_of_perm_taskIndices _ q hq)
  refine ⟨tq, htq, ?_⟩
  obtain ⟨k, hk, _, _, hcases⟩ := findOptimalOrder_cases mainTasks 3 fuel _ hfind
  have hk5 : k = 5 := by
    have : mainTasks.length = 6 := rfl
    omega
  subst hk5
  have hmem := mem_insertionPerms_of_perm 5 q hq
  rcases hcases with ⟨he, _⟩ | ⟨i, tr, _, _, ht, _, hall, _⟩
  · exact absurd he (by decide)
  · rw [htime] at ht
    simp only [Except.ok.injEq] at ht
    subst ht
    exact hall q hmem hvq tq htq

theorem findOptimalOrder_mainTasks_witness :
    6 ≤ 6 ∧
    findOptimalOrder 6 mainTasks 3 = Except.ok [3, 5, 0, 2, 1, 4] ∧
    List.Perm [3, 5, 0, 2, 1, 4] (taskIndices mainTasks.length) ∧
    isValidOrder [3, 5, 0, 2, 1, 4] mainTasks = Except.ok true ∧
    calculateTime [3, 5, 0, 2, 1, 4] mainTasks 3 = Except.ok 6 ∧
    ∀ q : List Int, List.Perm q (taskIndices mainTasks.length) →
      isValidOrder q mainTasks = Except.ok true →
      ∃ tq, calculateTime q mainTasks 3 = Except.ok tq ∧ 6 ≤ tq :=
  ⟨by decide, findOptimalOrder_mainTasks 6 (by decide)⟩

/-- C16: for every task list of length `N ≥ 1` with dependency indices in
`0..N-1` and every worker count, if no sequence of `generatePermutations(N)` is
accepted by `isValidOrder`, then `findOptimalOrder` (given call depth at least
`N`) returns the initial placeholder, the sequence of length `N` whose entries
are all `0`. -/
theorem findOptimalOrder_placeholder_when_none_valid (tasks : List Task) (numWorkers : Int)
    (fuel : Nat) (hN : 1 ≤ tasks.length) (hfuel : tasks.length ≤ fuel)
    (hdeps : ∀ t ∈ tasks, ∀ d ∈ t.depends, 0 ≤ d ∧ d < tasks.length)
    (hnone : ∀ perms, generatePermutations fuel (tasks.length : Int) = Except.ok perms →
      ∀ q ∈ perms, isValidOrder q tasks ≠ Except.ok true) :
    findOptimalOrder fuel tasks numWorkers = Except.ok (List.replicate tasks.length 0) := by
  obtain ⟨k, hk⟩ : ∃ k, tasks.length = k + 1 := ⟨tasks.length - 1, by omega⟩
  have hgen : generatePermutations fuel (tasks.length : Int) = Except.ok (insertionPerms k) := by
    rw [hk]
    exact generatePermutations_eq k fuel (by omega)
  refine findOptimalOrder_eq_placeholder tasks numWorkers fuel hN hfuel hdeps ?_
  intro q hq
  exact hnone _ hgen q (mem_insertionPerms_of_perm k q (by rw [← hk]; exact hq))

theorem findOptimalOrder_placeholder_when_none_valid_witness :
    1 ≤ cycleTasks.length ∧ cycleTasks.length ≤ 2 ∧
    (∀ t ∈ cycleTasks, ∀ d ∈ t.depends, 0 ≤ d ∧ d < cycleTasks.length) ∧
    (∀ perms, generatePermutations 2 (cycleTasks.length : Int) = Except.ok perms →
      ∀ q ∈ perms, isValidOrder q cycleTasks ≠ Except.ok true) ∧
    findOptimalOrder 2 cycleTasks 1 = Except.ok (List.replicate cycleTasks.length 0) := by
  have hnone : ∀ perms, generatePermutations 2 (cycleTasks.length : Int) = Except.ok perms →
      ∀ q ∈ perms, isValidOrder q cycleTasks ≠ Except.ok true := by
    intro perms h
    have hg : generatePermutations 2 (cycleTasks.length : Int) = Except.ok [[1, 0], [0, 1]] := by
      decide
    rw [hg] at h
    simp only [Except.ok.injEq] at h
    subst h
    decide
  exact ⟨by decide, by decide, by decide, hnone,
    findOptimalOrder_placeholder_when_none_valid cycleTasks 1 2 (by decide) (by decide)
      (by decide) hnone⟩

/-- C17: for every task list with dependency indices in `0..N-1` whose
dependency relation contains a cycle (a task that depends on itself included;
such a list has `N ≥ 1`), `isValidOrder` returns `false` on every permutation of
`{0,…,N-1}`. -/
theorem isValidOrder_rejects_all_of_cycle (tasks : List Task)
    (hdeps : ∀ t ∈ tasks, ∀ d ∈ t.depends, 0 ≤ d ∧ d < tasks.length)
    (hcyc : ¬ acyclic tasks) (q : List Int) (hq : List.Perm q (taskIndices tasks.length)) :
    isValidOrder q tasks = Except.ok false := by
  obtain ⟨b, hb⟩ := isValidOrder_total_of_perm tasks q hdeps hq
  cases b with
  | false => exact hb
  | true => exact absurd hb (not_valid_of_cycle tasks q hq hcyc)

theorem isValidOrder_rejects_all_of_cycle_witness :
    (∀ t ∈ cycleTasks, ∀ d ∈ t.depends, 0 ≤ d ∧ d < cycleTasks.length) ∧
    ¬ acyclic cycleTasks ∧ List.Perm [1, 0] (taskIndices cycleTasks.length) ∧
    isValidOrder [1, 0] cycleTasks = Except.ok false :=
  ⟨by decide, not_acyclic_cycleTasks, by decide,
    isValidOrder_rejects_all_of_cycle cycleTasks (by decide) not_acyclic_cycleTasks
      [1, 0] (by decide)⟩

/-- C18: for every permutation ordering of `{0,…,N-1}`, durations that are
non-negative `int` values, and every worker count, each task whose index is
smaller than the worker count gets a finish time equal to its own duration;
consequently, when `N ≤ W`, `calculateTime` returns the duration of task `N-1`
whatever the ordering is, so all orderings tie. -/
theorem finishTime_of_index_below_workers (tasks : List Task) (order : List Int)
    (numWorkers : Int) (hperm : List.Perm order (taskIndices tasks.length))
    (hdur : ∀ t ∈ tasks, 0 ≤ t.duration ∧ t.duration < 9223372036854775808) :
    ∃ times, finishTimes order tasks numWorkers = Except.ok times ∧
      (∀ (j : Nat) (task : Task), (j : Int) < numWorkers → tasks[j]? = some task →
        times[j]? = some task.duration) ∧
      ((tasks.length : Int) ≤ numWorkers → ∀ task, tasks[tasks.length - 1]? = some task →
        calculateTime order tasks numWorkers = Except.ok task.duration) := by
  obtain ⟨times, ht, hlen, hspec⟩ := finishTimes_eq_specFinish tasks order numWorkers hperm
  have hsmall : ∀ (j : Nat) (task : Task), (j : Int) < numWorkers → tasks[j]? = some task →
      times[j]? = some task.duration := by
    intro j task hj hget
    have hjN : j < tasks.length := by
      by_contra hge
      rw [List.getElem?_eq_none (by omega)] at hget
      simp at hget
    rw [hspec j hjN, specFinish_of_lt_workers tasks order numWorkers hdur j hj,
      durationOf_of_getElem? tasks j task hget]
  refine ⟨times, ht, hsmall, ?_⟩
  intro hW task hget
  have hN : 1 ≤ tasks.length := by
    by_contra hlt
    rw [List.getElem?_eq_none (by omega)] at hget
    simp at hget
  exact calculateTime_of_finishTimes tasks order numWorkers times _ hN ht
    (hsmall (tasks.length - 1) task (by omega) hget)

theorem finishTime_of_index_below_workers_witness :
    List.Perm [2, 0, 1] (taskIndices chainTasks3.length) ∧
    (∀ t ∈ chainTasks3, 0 ≤ t.duration ∧ t.duration < 9223372036854775808) ∧
    ∃ times, finishTimes [2, 0, 1] chainTasks3 3 = Except.ok times ∧
      (∀ (j : Nat) (task : Task), (j : Int) < 3 → chainTasks3[j]? = some task →
        times[j]? = some task.duration) ∧
      ((chainTasks3.length : Int) ≤ 3 → ∀ task, chainTasks3[chainTasks3.length - 1]? = some task →
        calculateTime [2, 0, 1] chainTasks3 3 = Except.ok task.duration) :=
  ⟨by decide, by decide,
    finishTime_of_index_below_workers chainTasks3 [2, 0, 1] 3 (by decide) (by decide)⟩

/-- C19 as stated fails: with the durations `1` and `9223372036854775807`, the
ordering `[0,1]` and one worker the sum `1 + 9223372036854775807` wraps around
and `calculateTime` returns `-9223372036854775808`; with two workers it returns
`9223372036854775807`, which is larger. -/
theorem calculateTime_overflow_breaks_monotonicity :
    (∀ x ∈ ([0, 1] : List Int), 0 ≤ x ∧ x < overflowTasks.length) ∧
    calculateTime [0, 1] overflowTasks 1 = Except.ok (-9223372036854775808) ∧
    calculateTime [0, 1] overflowTasks 2 = Except.ok 9223372036854775807 ∧
    ¬ ((9223372036854775807 : Int) ≤ -9223372036854775808) := by
  decide

/-- C19 (amended): monotonicity in the worker count when no addition can leave
the 64-bit range.  For every task list of length `N ≥ 1` whose durations lie
between `-B` and `math.MaxInt64 - math.MaxInt32` for some `B ≥ 0`, every
ordering with entries in `0..N-1` and `len(order) · B ≤ 2^63`, and all worker
counts `W ≤ W'`: `calculateTime(order, tasks, W') ≤ calculateTime(order, tasks, W)`.
With `B = 0` this is the case of non-negative durations. -/
theorem calculateTime_mono_workers (tasks : List Task) (order : List Int)
    (numWorkers numWorkers1 B : Int) (hN : 1 ≤ tasks.length)
    (horder : ∀ x ∈ order, 0 ≤ x ∧ x < tasks.length)
    (hW : numWorkers ≤ numWorkers1) (hB : 0 ≤ B)
    (hdur : ∀ t ∈ tasks, -B ≤ t.duration ∧ t.duration ≤ maxDuration)
    (hroom : (order.length : Int) * B ≤ 9223372036854775808) :
    ∃ t t1, calculateTime order tasks numWorkers = Except.ok t ∧
      calculateTime order tasks numWorkers1 = Except.ok t1 ∧ t1 ≤ t := by
  obtain ⟨r, r1, hr, hr1, hlen, hlen1, hle⟩ := timeLoop_mono tasks numWorkers numWorkers1 B hW hB
    hdur order (List.replicate tasks.length 0) (List.replicate tasks.length 0) 0 (le_refl _)
    (by linarith) (by simp) (by simp) (by simp) (by simp) (fun k => le_refl _) horder
  have hlt : tasks.length - 1 < r.length := by omega
  have hlt1 : tasks.length - 1 < r1.length := by omega
  have hget : r[tasks.length - 1]? = some (r.get ⟨tasks.length - 1, hlt⟩) := by
    rw [List.getElem?_eq_getElem hlt]; rfl
  have hget1 : r1[tasks.length - 1]? = some (r1.get ⟨tasks.length - 1, hlt1⟩) := by
    rw [List.getElem?_eq_getElem hlt1]; rfl
  refine ⟨_, _, calculateTime_of_finishTimes tasks order numWorkers r _ hN hr hget,
    calculateTime_of_finishTimes tasks order numWorkers1 r1 _ hN hr1 hget1, ?_⟩
  have := hle (tasks.length - 1)
  rw [hget, hget1] at this
  simpa using this

theorem calculateTime_mono_workers_witness :
    1 ≤ mainTasks.length ∧
    (∀ x ∈ ([0, 1, 2, 3, 4, 5] : List Int), 0 ≤ x ∧ x < mainTasks.length) ∧
    (1 : Int) ≤ 3 ∧ (0 : Int) ≤ 0 ∧
    (∀ t ∈ mainTasks, -0 ≤ t.duration ∧ t.duration ≤ maxDuration) ∧
    ((([0, 1, 2, 3, 4, 5] : List Int).length : Int) * 0 ≤ 9223372036854775808) ∧
    ∃ t t1, calculateTime [0, 1, 2, 3, 4, 5] mainTasks 1 = Except.ok t ∧
      calculateTime [0, 1, 2, 3, 4, 5] mainTasks 3 = Except.ok t1 ∧ t1 ≤ t :=
  ⟨by decide, by decide, by decide, by decide, by decide, by decide,
    calculateTime_mono_workers mainTasks [0, 1, 2, 3, 4, 5] 1 3 0 (by decide) (by decide)
      (by decide) (by decide) (by decide) (by decide)⟩

/-- C20 as stated fails: with the non-negative durations `1` and
`9223372036854775807`, the ordering `[0,1]` and one worker, the sum
`1 + 9223372036854775807` wraps around and `calculateTime` returns
`-9223372036854775808`, which is below the duration of task `N-1`. -/
theorem calculateTime_overflow_breaks_bounds :
    List.Perm [0, 1] (taskIndices overflowTasks.length) ∧
    (∀ t ∈ overflowTasks, 0 ≤ t.duration ∧ t.duration < 9223372036854775808) ∧
    overflowTasks[overflowTasks.length - 1]? = some ⟨9223372036854775807, []⟩ ∧
    calculateTime [0, 1] overflowTasks 1 = Except.ok (-9223372036854775808) ∧
    ¬ ((9223372036854775807 : Int) ≤ -9223372036854775808) := by
  decide

/-- C20 (amended): for every permutation ordering of `{0,…,N-1}` (`N ≥ 1`),
durations between `0` and `math.MaxInt64 - math.MaxInt32` and every worker
count `W ≥ 1`, the estimate is bounded:
`duration(N-1) ≤ calculateTime(order, tasks, W) ≤` the sum of the durations of
all `N` tasks. -/
theorem calculateTime_bounds (tasks : List Task) (order : List Int) (numWorkers : Int)
    (hN : 1 ≤ tasks.length) (hperm : List.Perm order (taskIndices tasks.length))
    (hdur : ∀ t ∈ tasks, 0 ≤ t.duration ∧ t.duration ≤ maxDuration)
    (hW : 1 ≤ numWorkers) :
    ∃ (t : Int) (task : Task), calculateTime order tasks numWorkers = Except.ok t ∧
      tasks[tasks.length - 1]? = some task ∧
      task.duration ≤ t ∧ t ≤ durationSum tasks := by
  obtain ⟨times, ht, _, hspec⟩ := finishTimes_eq_specFinish tasks order numWorkers hperm
  have hlt : tasks.length - 1 < tasks.length := by omega
  have hget : tasks[tasks.length - 1]? = some (tasks.get ⟨tasks.length - 1, hlt⟩) := by
    rw [List.getElem?_eq_getElem hlt]; rfl
  obtain ⟨h1, h2⟩ := specFinish_bounds tasks order numWorkers hW hdur (tasks.length - 1) hlt
  rw [durationOf_of_getElem? tasks _ _ hget] at h1
  have hs := hspec (tasks.length - 1) hlt
  rw [Nat.sub_add_cancel hN] at h1 h2 hs
  rw [List.take_length] at h2
  exact ⟨_, _, calculateTime_of_finishTimes tasks order numWorkers times _ hN ht hs, hget, h1, h2⟩

theorem calculateTime_bounds_witness :
    1 ≤ mainTasks.length ∧
    List.Perm [3, 5, 0, 2, 1, 4] (taskIndices mainTasks.length) ∧
    (∀ t ∈ mainTasks, 0 ≤ t.duration ∧ t.duration ≤ maxDuration) ∧ (1 : Int) ≤ 3 ∧
    ∃ (t : Int) (task : Task), calculateTime [3, 5, 0, 2, 1, 4] mainTasks 3 = Except.ok t ∧
      mainTasks[mainTasks.length - 1]? = some task ∧
      task.duration ≤ t ∧ t ≤ durationSum mainTasks :=
  ⟨by decide, by decide, by decide, by decide,
    calculateTime_bounds mainTasks [3, 5, 0, 2, 1, 4] 3 (by decide) (by decide) (by decide)
      (by decide)⟩

end GoParallel
